import Mathlib

/-!
Verification of the chatbot-TangerMed backend core against its specification.

The development shallowly embeds the Python sources:
* `application/insertion/chunkers/golden_chunker.py` (`GoldenChunker`),
* `application/insertion/neo_inserter.py` (`NeoInserter.insert`),
* `application/retrieval/augmented_retriever.py` (`AugmentedRetriever`),
* `application/chatsystem/history_manager.py` (`ChatHistory`),
* `application/chatsystem/summarizer.py` (`ConversationUtils`),
* `application/chatsystem/orchestrator.py` (`ChatSystem._stream_response`).

Text is modelled as `List Char`; sizes are raw character counts, exactly as the
Python code uses `len`.  External services (generation, embedding, rerank) are
modelled as oracle parameters; floating point scores are modelled as rationals.
-/

namespace MedBot

/-- Raw text, as a list of characters (`len` = `List.length`). -/
abbrev Text := List Char

/-- Python `\s` character class: `[ \t\n\r\f\v]`. -/
def isPyWS (c : Char) : Bool :=
  c = ' ' || c = '\t' || c = '\n' || c = '\r' || c = '\x0b' || c = '\x0c'

/-- Length of the maximal leading run of characters satisfying `p`. -/
def runLen (p : Char → Bool) : Text → Nat
  | [] => 0
  | c :: rest => if p c then runLen p rest + 1 else 0

/-- Python `str.strip("\n")`: drop newline characters from both ends. -/
def stripNl (s : Text) : Text :=
  ((s.dropWhile (· = '\n')).reverse.dropWhile (· = '\n')).reverse

/-! ## GoldenChunker (`golden_chunker.py`)

Configuration mirrors the `GoldenChunker` constructor arguments; the
constructor's `ValueError` checks become hypotheses of the theorems. -/

structure ChunkerCfg where
  maxSize : Nat
  chunkSize : Nat
  minSize : Nat
  mergeReversed : Bool
deriving Repr, DecidableEq

/-- A delimiter line for `SECTION_PATTERN = ^\s*---+\s*$`: optional blanks,
three or more dashes, optional blanks filling the whole line.  (The rare
`re.MULTILINE` corner in which `\s*` swallows adjacent blank lines is not
modelled; none of the concrete inputs used below contain dashes.) -/
def isDashLine (l : Text) : Bool :=
  let t := l.drop (runLen (fun c => c = ' ' || c = '\t') l)
  let d := runLen (· = '-') t
  3 ≤ d && (t.drop d).all (fun c => c = ' ' || c = '\t')

/-- `re.split(SECTION_PATTERN, text)` over the text's lines, keeping only the
non-empty pieces (`_split_by_section` filters empty strings).  `cur` is the
piece accumulated so far; a delimiter line emits it, and the newline that
terminates the delimiter line starts the next piece (the regex match consumes
only the delimiter line's content, not the surrounding newlines). -/
def sectionsGo (cur : Text) : List Text → List Text
  | [] => []
  | [l] =>
    if isDashLine l then (if cur = [] then [] else [cur])
    else if cur ++ l = [] then [] else [cur ++ l]
  | l :: l' :: rest =>
    if isDashLine l then
      (if cur = [] then [] else [cur]) ++ sectionsGo ['\n'] (l' :: rest)
    else sectionsGo (cur ++ l ++ ['\n']) (l' :: rest)

/-- `GoldenChunker._split_by_section`. -/
def splitBySection (s : Text) : List Text :=
  sectionsGo [] (s.splitOn '\n')

/-- Does a heading of exactly `level` `#` characters start here (a line start)?
Mirrors `^(#^level)\s+.*$`: exactly `level` hashes followed by at least one
whitespace character (a further `#` fails the `\s+`). -/
def headingHere (level : Nat) (s : Text) : Bool :=
  (s.take level).length = level
    && (s.take level).all (· = '#')
    && match s.drop level with
       | [] => false
       | c :: _ => isPyWS c

/-- Length of the regex match for a heading starting at the head of `s`:
the `level` hashes, the maximal `\s+` run (which may cross newlines), then
the maximal `.*` run of non-newline characters.  Assumes `headingHere`, so the
run after the hashes starts with one known whitespace character. -/
def headingMatchLen (level : Nat) (s : Text) : Nat :=
  let w := runLen isPyWS (s.drop (level + 1)) + 1
  let b := runLen (· ≠ '\n') (s.drop (level + w))
  level + w + b

/-- `re.finditer` scan for `_split_by_heading_level`: absolute start positions
of heading matches.  `pos` is the absolute position of the head of the text,
`atStart` whether that position is a line start, and `skip` the number of
characters of an already-recognised match still to pass over (`finditer`
resumes scanning after each match; the character right before the resume
point is never a newline, so scanning resumes mid-line). -/
def scanHeadsGo (level : Nat) : Text → Nat → Bool → Nat → List Nat
  | [], _, _, _ => []
  | _ :: rest, pos, _, (k + 1) => scanHeadsGo level rest (pos + 1) false k
  | c :: rest, pos, atStart, 0 =>
    if atStart && headingHere level (c :: rest) then
      pos :: scanHeadsGo level rest (pos + 1) false (headingMatchLen level (c :: rest) - 1)
    else scanHeadsGo level rest (pos + 1) (c = '\n') 0

/-- The list of heading-match start positions in `s` for the given level. -/
def scanHeads (level : Nat) (s : Text) : List Nat :=
  scanHeadsGo level s 0 true 0

/-- Slice `s` at consecutive absolute positions: `[start, next)` pieces,
with the final piece ending at `s.length`. -/
def slicesAt (s : Text) : List Nat → List Text
  | [] => []
  | [a] => [(s.drop a)]
  | a :: b :: rest => (s.drop a).take (b - a) :: slicesAt s (b :: rest)

/-- `GoldenChunker._split_by_heading_level`. -/
def splitByHeadingLevel (s : Text) (level : Nat) : List Text :=
  match h : scanHeads level s with
  | [] => [s]
  | a :: rest =>
    let chunks := slicesAt s (a :: rest)
    let preamble := stripNl (s.take a)
    if preamble = [] then chunks else preamble :: chunks

/-! ### Small-chunk merge (`_merge_small_chunks`) -/

/-- Top-down merge loop (`merge_reversed = False`) with the chunk under the
cursor held in `x`: glue a too-small `x` to its right neighbour when the
result stays within `maxS` and re-examine the merged chunk; otherwise emit
`x` and advance. -/
def mergeTDGo (minS maxS : Nat) (x : Text) : List Text → List Text
  | [] => [x]
  | y :: rest =>
    if x.length < minS && (x ++ y).length ≤ maxS then
      mergeTDGo minS maxS (x ++ y) rest
    else
      x :: mergeTDGo minS maxS y rest

/-- Top-down merge (`merge_reversed = False`). -/
def mergeTD (minS maxS : Nat) : List Text → List Text
  | [] => []
  | x :: rest => mergeTDGo minS maxS x rest

/-- Bottom-up merge loop (`merge_reversed = True`), with cursor `i` walking from
the end towards the front: a too-small `merged[i]` is appended to `merged[i-1]`
when the result stays within `maxS` (`merged[i-1] = cand; del merged[i];
i = min(i, len-1)`), otherwise `i` decreases. -/
def mergeBU (minS maxS : Nat) (l : List Text) (i : Nat) : List Text :=
  if h : 0 < i ∧ i < l.length then
    let cur := l.get ⟨i, h.2⟩
    let prev := l.get ⟨i - 1, by omega⟩
    if cur.length < minS && (prev ++ cur).length ≤ maxS then
      let l2 := (l.set (i - 1) (prev ++ cur)).eraseIdx i
      mergeBU minS maxS l2 (min i (l2.length - 1))
    else
      mergeBU minS maxS l (i - 1)
  else l
termination_by l.length + i
decreasing_by
  · have hlen : ((l.set (i - 1) (l.get ⟨i - 1, by omega⟩ ++ l.get ⟨i, h.2⟩))).length = l.length := by
      simp
    have : ((l.set (i - 1) (l.get ⟨i - 1, by omega⟩ ++ l.get ⟨i, h.2⟩)).eraseIdx i).length
        = l.length - 1 := by
      rw [List.length_eraseIdx] <;> simp <;> omega
    simp only [this]
    omega
  · omega

/-- `GoldenChunker._merge_small_chunks`. -/
def mergeSmallChunks (cfg : ChunkerCfg) (chunks : List Text) : List Text :=
  if cfg.minSize = 0 || chunks = [] then chunks
  else if cfg.mergeReversed then mergeBU cfg.minSize cfg.maxSize chunks (chunks.length - 1)
  else mergeTD cfg.minSize cfg.maxSize chunks

/-! ### Fallback splitter (`_fallback_split_with_headers`) -/

/-- Parser state for the leading header block `^(?:#+\s+.*(?:\n|$))+`:
reading the hashes (`hashes k` with `k` read so far), inside the `\s+` run,
or inside the `.*` rest of the heading line. -/
inductive HdrState
  | hashes (k : Nat)
  | ws
  | body

/-- One left-to-right pass recognising `^(?:#+\s+.*(?:\n|$))+`: `com` is the
length of the longest fully matched iteration sequence so far (committed at
each newline that closes an iteration), `ten` the length scanned in the
current tentative iteration.  The `\s+` run is maximal and may cross
newlines, exactly as `\s` does in the regex. -/
def hdrGo : Text → HdrState → Nat → Nat → Nat
  | [], .hashes _, com, _ => com
  | [], .ws, _, ten => ten
  | [], .body, _, ten => ten
  | c :: rest, .hashes k, com, ten =>
    if c = '#' then hdrGo rest (.hashes (k + 1)) com (ten + 1)
    else if k ≠ 0 && isPyWS c then hdrGo rest .ws com (ten + 1)
    else com
  | c :: rest, .ws, com, ten =>
    if isPyWS c then hdrGo rest .ws com (ten + 1)
    else hdrGo rest .body com (ten + 1)
  | c :: rest, .body, com, ten =>
    if c = '\n' then hdrGo rest (.hashes 0) (ten + 1) (ten + 1)
    else hdrGo rest .body com (ten + 1)

/-- Length of the leading header block of `s` (0 when `re.match` fails). -/
def headerBlockLen (s : Text) : Nat :=
  hdrGo s (.hashes 0) 0 0

/-- Fixed-size slicing: `acc` is the reversed slice under construction, `cap`
its remaining capacity.  Every emitted slice has at most `max cap0 1` elements
(a fresh slice always accepts at least the one element that forced the
flush). -/
def chunksOfGo {α : Type _} (cap0 : Nat) : List α → List α → Nat → List (List α)
  | [], acc, _ => if acc.isEmpty then [] else [acc.reverse]
  | c :: rest, acc, 0 =>
    if acc.isEmpty then chunksOfGo cap0 rest [c] (cap0 - 1)
    else acc.reverse :: chunksOfGo cap0 rest [c] (cap0 - 1)
  | c :: rest, acc, (k + 1) => chunksOfGo cap0 rest (c :: acc) k

/-- Consecutive slices of at most `max n 1` elements (for the chunker: the
LangChain character fallback, whose final `""` separator cuts at character
level; for the inserter: `payload[start : start + batch_size]` batching). -/
def chunksOf {α : Type _} (n : Nat) (s : List α) : List (List α) :=
  chunksOfGo n s [] n

/-- `GoldenChunker._fallback_split_with_headers`.

Modelled from the spec: the `RecursiveCharacterTextSplitter` it invokes is an
external library (LangChain), not part of this repository; the spec describes
this step as "a generic fixed-size splitter with zero overlap" whose "target
size [is] reduced by the prefix length".  It is modelled as `chunksOf`:
character-level pieces of at most `max effective 1` characters (the library's
final `""` separator cuts at character granularity, so each produced piece has
at most `chunk_size` characters, and single characters when `chunk_size = 0`);
a negative effective size is a library `ValueError` (`chunk_overlap > chunk_size`),
modelled as `none`. -/
def fallbackSplitWithHeaders (cfg : ChunkerCfg) (s : Text) : Option (List Text) :=
  let hl := headerBlockLen s
  let eff : Int := (cfg.chunkSize : Int) - hl
  if eff < 0 then none
  else
    let body := s.drop hl
    let bodyChunks := chunksOf eff.toNat body
    if hl = 0 then some bodyChunks
    else some (bodyChunks.map (fun c => s.take hl ++ c))

/-! ### Recursive split and the public `chunk` -/

/-- One `for piece in oversized` pass of `_split_recursively` at a given
heading level; returns `(chunks-emitted-so-far, next_round)`. -/
def levelPass (cfg : ChunkerCfg) (level : Nat) (oversized : List Text)
    (chunks : List Text) : List Text × List Text :=
  oversized.foldl
    (fun acc piece =>
      if piece.length ≤ cfg.chunkSize then (acc.1 ++ [piece], acc.2)
      else
        let subParts := splitByHeadingLevel piece level
        if subParts.length = 1 then (acc.1, acc.2 ++ [piece])
        else
          subParts.foldl
            (fun acc2 sub =>
              if sub.length ≤ cfg.chunkSize then (acc2.1 ++ [sub], acc2.2)
              else (acc2.1, acc2.2 ++ [sub]))
            acc)
    (chunks, [])

/-- The `for level in range(1, 7)` loop of `_split_recursively` (running a pass
on an empty `oversized` list is a no-op, so the early `break` needs no case). -/
def levelLoop (cfg : ChunkerCfg) : Nat → List Text → List Text → List Text × List Text
  | 0, oversized, chunks => (chunks, oversized)
  | n + 1, oversized, chunks =>
    let pr := levelPass cfg (7 - (n + 1)) oversized chunks
    levelLoop cfg n pr.2 pr.1

/-- Body of the `for remainder in oversized` fallback loop of
`_split_recursively`. -/
def remainderStep (cfg : ChunkerCfg) (acc : Option (List Text)) (remainder : Text) :
    Option (List Text) :=
  match acc with
  | none => none
  | some cs =>
    if remainder.length > cfg.maxSize then
      match fallbackSplitWithHeaders cfg remainder with
      | none => none
      | some fb => some (cs ++ fb)
    else some (cs ++ [remainder])

/-- `GoldenChunker._split_recursively` (`none` models a raised exception from
the fallback splitter). -/
def splitRecursively (cfg : ChunkerCfg) (s : Text) : Option (List Text) :=
  let pr := levelLoop cfg 6 [s] []
  let merged := mergeSmallChunks cfg pr.1
  pr.2.foldl (remainderStep cfg) (some merged)

/-- Body of the `for section in self._split_by_section(text)` loop of `chunk`. -/
def sectionStep (cfg : ChunkerCfg) (acc : Option (List Text)) (section_ : Text) :
    Option (List Text) :=
  match acc with
  | none => none
  | some cs =>
    if section_.length ≤ cfg.chunkSize then some (cs ++ [section_])
    else
      match splitRecursively cfg section_ with
      | none => none
      | some sub => some (cs ++ sub)

/-- `GoldenChunker.chunk` (`none` models a raised exception). -/
def chunk (cfg : ChunkerCfg) (s : Text) : Option (List Text) :=
  (splitBySection s).foldl (sectionStep cfg) (some [])

/-! ## Chat history (`history_manager.py`)

A transcript entry of the in-memory deque (`{id, role, content, …,
persisted}`; the free-form `context`, timestamps and `db_id` play no role in
the claims and are omitted).  The token counter `tc` is kept abstract: the
real `token_count` asks the generation service and falls back to a
whitespace word count, so it is an arbitrary function of the transcript. -/
structure HMsg where
  id : String
  role : String
  content : String
  persisted : Bool
deriving Repr, DecidableEq

/-- `ChatHistory.flush_to_db` as it acts on the in-memory messages: every
entry is marked `persisted` (entries already persisted are skipped, so the
operation is idempotent). -/
def flushToDb (msgs : List HMsg) : List HMsg :=
  msgs.map (fun m => { m with persisted := true })

/-- The `while self.token_count() > self.token_threshold and
len(self.messages) > 1` eviction loop of `maybe_summarise`: drop the oldest
entry while the token count exceeds the threshold and more than one entry
remains. -/
def evictLoop (tc : List HMsg → Nat) (thr : Nat) : List HMsg → List HMsg
  | [] => []
  | m :: rest =>
    if thr < tc (m :: rest) && !rest.isEmpty then evictLoop tc thr rest
    else m :: rest

/-- `ChatHistory.maybe_summarise`.  `summaryText` is the oracle reply of the
generation service for the summarisation prompt.  Returns the new transcript
and the recorded `conversation.token_budgeting_summary` (`none` when the
budget was not exceeded); `none` overall models the `IndexError` raised by
`self.messages[0]` on an empty transcript. -/
def maybeSummarise (tc : List HMsg → Nat) (thr : Nat) (summaryText : String)
    (msgs : List HMsg) : Option (List HMsg × Option String) :=
  if tc msgs < thr then some (msgs, none)
  else
    let flushed := flushToDb msgs
    let trimmed := evictLoop tc thr flushed
    match trimmed with
    | [] => none
    | _ :: _ => some (flushToDb trimmed, some summaryText)

/-! ## Conversation utilities (`summarizer.py`) -/

/-- One transcript entry in OpenAI format, as produced by
`ChatHistory.to_openai_format`. -/
structure OpenAIMsg where
  role : String
  content : String
deriving Repr, DecidableEq

/-- Python `str.strip()`: drop `\s` characters from both ends. -/
def pyStrip (s : Text) : Text :=
  ((s.dropWhile (isPyWS ·)).reverse.dropWhile (isPyWS ·)).reverse

/-- ASCII-lowered comparison used for the case-insensitive (`re.I`) prefix
match of `_extract_prefixed`. -/
def lowerEq (a b : Text) : Bool :=
  a.map Char.toLower = b.map Char.toLower

/-- Try to match one line of the model output against
`^\s*PREFIX:\s*(.+)$` (case-insensitive): optional whitespace, the prefix,
a colon, optional whitespace, then a non-empty remainder which is returned
stripped (`match.group(1).strip()`). -/
def extractFromLine (pfx : Text) (line : Text) : Option Text :=
  let t := line.dropWhile (isPyWS ·)
  if lowerEq (t.take pfx.length) pfx then
    match t.drop pfx.length with
    | ':' :: rest =>
      let r := rest.dropWhile (isPyWS ·)
      match r with
      | [] => none
      | _ :: _ => some (pyStrip r)
    | _ => none
  else none

/-- `ConversationUtils._extract_prefixed`: first line (`re.M` search) whose
content follows the expected `PREFIX:` shape; `none` models the raised
`ValueError`. -/
def extractPrefixed (pfx : Text) (text : Text) : Option Text :=
  (text.splitOn '\n').findSome? (extractFromLine pfx)

/-- The `REWRITE_PROMPT_PREFIX.format(...)` prompt.  The template's fixed
instruction text is abbreviated to its anchors; only the places where
`max_tokens`, the joined history and the query are interpolated matter to
the embedding. -/
def rewritePrompt (maxTokens : Nat) (histJoined : String) (query : String) : String :=
  "<|im_start|>system REWRITE instructions, max tokens " ++ toString maxTokens
    ++ " ###HISTORY### " ++ histJoined ++ " ###QUESTION### " ++ query
    ++ " <|im_end|><|im_start|>assistant"

/-- `"\n".join(f"{m['role']}: {m['content']}" for m in history)`. -/
def historyJoined (hist : List OpenAIMsg) : String :=
  String.intercalate "\n" (hist.map (fun m => m.role ++ ": " ++ m.content))

/-- `ConversationUtils.rewrite`.  `genO` is the generation-service oracle
(`generator.invoke`); the returned flag records whether the service was
invoked.  An empty history short-circuits to the query itself; otherwise the
model reply is parsed, falling back to the stripped raw reply. -/
def rewrite (genO : String → String) (maxTokens : Nat) (query : String)
    (historyOpenai : List OpenAIMsg) : String × Bool :=
  match historyOpenai with
  | [] => (query, false)
  | _ :: _ =>
    let prompt := rewritePrompt maxTokens (historyJoined historyOpenai) query
    let rawResponse := genO prompt
    match extractPrefixed "REWRITE".toList rawResponse.toList with
    | some rewritten => (String.mk rewritten, true)
    | none => (String.mk (pyStrip rawResponse.toList), true)

/-! ## Streaming turn (`orchestrator.py`) -/

/-- The `for token in self.generator.invoke(prompt, stream=True)` loop:
`token_acc.append(token)` for each yielded token. -/
def streamAccum : List String → List String → List String
  | acc, [] => acc
  | acc, t :: ts => streamAccum (acc ++ [t]) ts

/-- Result of `ChatSystem._finalise_turn`: the transcript after the call,
the title assigned to `conversation.title` by this call (if any), and the
exception propagating out of the call (if any).  The `history.add` appends
happen first, so the transcript retains both new entries even when a later
step raises. -/
structure FinaliseResult where
  hist : List HMsg
  titleSet : Option String
  raised : Option String
deriving Repr, DecidableEq

/-- The tail of `_finalise_turn` after the title step: on an aborted turn
`maybe_summarise` is skipped; otherwise it runs (its `IndexError` on an
empty transcript propagates). -/
def finaliseTail (tc : List HMsg → Nat) (thr : Nat) (summaryText : String)
    (h2 : List HMsg) (titleSet : Option String) (aborted : Bool) : FinaliseResult :=
  if aborted then ⟨h2, titleSet, none⟩
  else
    match maybeSummarise tc thr summaryText h2 with
    | none => ⟨h2, titleSet, some "IndexError"⟩
    | some out => ⟨out.1, titleSet, none⟩

/-- `ChatSystem._finalise_turn`: append the user entry and the assistant
entry; then, when no title was generated yet, the reply is non-empty and
the transcript is non-empty, call `utils.generate_title` — `titleO` is its
oracle: `generate_title` only catches the extraction `ValueError` (falling
back to the stripped raw output), so a generation-service failure there is
`.error` and propagates out of `_finalise_turn`; finally run
`maybe_summarise` unless the turn was aborted. -/
def finaliseTurn (tc : List HMsg → Nat) (thr : Nat) (summaryText : String)
    (titleO : Except String String) (titleGenerated : Bool)
    (hist : List HMsg) (userText assistantReply userMsgId assistantMsgId : String)
    (aborted : Bool) : FinaliseResult :=
  let h2 := hist ++ [⟨userMsgId, "user", userText, false⟩,
                     ⟨assistantMsgId, "assistant", assistantReply, false⟩]
  if !titleGenerated && !assistantReply.isEmpty && !h2.isEmpty then
    match titleO with
    | .error e => ⟨h2, none, some e⟩
    | .ok t => finaliseTail tc thr summaryText h2 (some t) aborted
  else finaliseTail tc thr summaryText h2 none aborted

/-- Outcome of one run of the `_stream_response` generator: the transcript,
the title set by the turn, the partial text attached to a raised
`GenerationAborted` (`exc.partial`), any other exception propagating to the
consumer instead, and the fully accumulated reply on normal completion. -/
structure StreamOutcome where
  hist : List HMsg
  titleSet : Option String
  abortedPartial : Option String
  otherRaised : Option String
  completed : Option String
deriving Repr, DecidableEq

/-- `ChatSystem._stream_response`.  The generation stream is modelled by the
tokens it yields before either finishing normally (`failure = none`) or
raising (`failure = some e`).  On a failure the accumulated
`partial = "".join(token_acc)` is finalised with `aborted=True` and then
`GenerationAborted(partial)` is raised to the consumer — unless
`_finalise_turn` itself raises, in which case that exception propagates
instead and the `raise GenerationAborted(partial)` line never runs. -/
def streamResponse (tc : List HMsg → Nat) (thr : Nat) (summaryText : String)
    (titleO : Except String String) (titleGenerated : Bool)
    (hist : List HMsg) (userText userMsgId assistantMsgId : String)
    (tokens : List String) (failure : Option String) : StreamOutcome :=
  let tokenAcc := streamAccum [] tokens
  let part := String.join tokenAcc
  match failure with
  | some _ =>
    let fin := finaliseTurn tc thr summaryText titleO titleGenerated hist userText
        part userMsgId assistantMsgId true
    match fin.raised with
    | some e => ⟨fin.hist, fin.titleSet, none, some e, none⟩
    | none => ⟨fin.hist, fin.titleSet, some part, none, none⟩
  | none =>
    let fin := finaliseTurn tc thr summaryText titleO titleGenerated hist userText
        part userMsgId assistantMsgId false
    match fin.raised with
    | some e => ⟨fin.hist, fin.titleSet, none, some e, none⟩
    | none => ⟨fin.hist, fin.titleSet, none, none, some part⟩

/-! ## Retriever (`augmented_retriever.py`)

Scores are rationals standing for the Python floats; chunk ids are numbers.
The external rerank service is an oracle returning one score per candidate
(`Reranker.rerank` re-sorts its batched `(index, score)` pairs by global
index, so the caller reads the scores positionally). -/

abbrev Score := ℚ

/-- `combined_scores[big_chunk_id] += delta` on a `defaultdict(float)`:
update the entry in place if the key exists, otherwise append it (Python
dicts preserve insertion order). -/
def updAdd (m : List (Nat × Score)) (k : Nat) (delta : Score) : List (Nat × Score) :=
  if m.any (fun p => p.1 = k) then
    m.map (fun p => if p.1 = k then (p.1, p.2 + delta) else p)
  else m ++ [(k, delta)]

/-- `AugmentedRetriever._merge_scores`: fuse the two per-chunk similarity
maps, weighting small-chunk similarity by `alpha` and summary similarity by
`1 - alpha`; a chunk missing from one map simply contributes nothing for
that signal. -/
def mergeScores (alpha : Score) (summaryScores smallChunkScores : List (Nat × Score)) :
    List (Nat × Score) :=
  let m1 := smallChunkScores.foldl (fun m p => updAdd m p.1 (alpha * p.2)) []
  summaryScores.foldl (fun m p => updAdd m p.1 ((1 - alpha) * p.2)) m1

/-- Python's stable `list.sort(key=..., reverse=True)` / `sorted(...,
reverse=True)`: descending by key, equal keys keep their original relative
order. -/
def pySortDescBy {α : Type _} (key : α → Score) (l : List α) : List α :=
  List.insertionSort (fun a b => key b ≤ key a) l

/-- One entry of the list returned by `AugmentedRetriever.retrieve`. -/
structure RetrievedItem where
  chunkId : Nat
  summaryScore : Score
  smallChunkScore : Score
  combinedScore : Score
  rerankScore : Score
deriving Repr, DecidableEq

/-- `AugmentedRetriever.retrieve` after the two vector queries: fuse the
scores, keep the `prefetch_limit` best fused chunks
(`_get_top_big_chunks`; every id is assumed present in the store), rerank
their texts (`_rerank_chunks_with_scores` zips candidates with the oracle
scores and sorts by score descending), and truncate to `limit`. -/
def retrieve (alpha : Score) (prefetchLimit limit : Nat) (chunkText : Nat → String)
    (rerankO : List String → List Score)
    (summaryScores smallChunkScores : List (Nat × Score)) : List RetrievedItem :=
  let bigChunkScores := mergeScores alpha summaryScores smallChunkScores
  let sortedChunks := pySortDescBy Prod.snd bigChunkScores
  let topChunkIds := (sortedChunks.take prefetchLimit).map Prod.fst
  let candidates := topChunkIds.map chunkText
  let rerankScores := rerankO candidates
  let chunkScorePairs := pySortDescBy Prod.snd (topChunkIds.zip rerankScores)
  (chunkScorePairs.take limit).map (fun p =>
    { chunkId := p.1
      summaryScore := ((summaryScores.lookup p.1).getD 0)
      smallChunkScore := ((smallChunkScores.lookup p.1).getD 0)
      combinedScore := ((bigChunkScores.lookup p.1).getD 0)
      rerankScore := p.2 })

/-! ## Ingestion (`neo_inserter.py` with `database/__init__.py` and the
`knowledgebase` models)

The relational store is a record of rows; `session_scope(write_enabled=True)`
commits on success and rolls back wholly on an exception, so a transaction
is modelled as either applying its whole effect or none.  The generation and
embedding services are oracles that may fail (`Except`); a failing final
persistence transaction is modelled by the `txnResult` oracle. -/

inductive FileStatus
  | processing
  | ok
  | failed
deriving Repr, DecidableEq

/-- A `knowledgebase_files` row (status defaults to `processing`). -/
structure FileRow where
  id : Nat
  title : String
  status : FileStatus
  errorMessage : Option String
deriving Repr, DecidableEq

/-- An embedding vector (its values never matter to the claims). -/
abbrev Vec := List Score

/-- A `knowledgebase_bigchunks` row. -/
structure BigChunkRow where
  fileId : Nat
  text : Text
deriving Repr, DecidableEq

/-- A `knowledgebase_bc_summaries` row. -/
structure SummaryRow where
  fileId : Nat
  text : Text
  embedding : Vec
deriving Repr, DecidableEq

/-- A `knowledgebase_smallchunks` row. -/
structure SmallChunkRow where
  fileId : Nat
  text : Text
  embedding : Vec
deriving Repr, DecidableEq

structure DB where
  files : List FileRow
  bigChunks : List BigChunkRow
  summaries : List SummaryRow
  smallChunks : List SmallChunkRow
deriving Repr, DecidableEq

/-- The tagged work items of `NeoInserter.insert` step 2 (`{"type":
"summary" | "small_chunk", "big_idx": …, "small_idx": …, "text": …}`). -/
inductive WorkItem
  | summaryItem (bigIdx : Nat) (text : Text)
  | smallChunkItem (bigIdx smallIdx : Nat) (text : Text)
deriving Repr, DecidableEq

/-- Python `enumerate(xs, start=i)`. -/
def enumerate {α : Type _} : Nat → List α → List (Nat × α)
  | _, [] => []
  | i, x :: xs => (i, x) :: enumerate (i + 1) xs

/-- Step 2 of `insert` for one big chunk: the optional summary work item
(`_generate_summary` failure degrades to the truncated text
`big_text[:200]`, never aborts) followed by one work item per small chunk;
a small-chunker exception aborts.  Returns the work items and the embedding
payload texts, in order. -/
def bigStepItems (scCfg : ChunkerCfg) (enableSummaries : Bool)
    (summaryO : Nat → Text → Except String Text) (bigIdx : Nat) (bigText : Text) :
    Except String (List WorkItem × List Text) :=
  let summaryPart : List WorkItem × List Text :=
    if enableSummaries then
      let summaryText :=
        match summaryO bigIdx bigText with
        | .ok t => t
        | .error _ => bigText.take 200
      ([.summaryItem bigIdx summaryText], [summaryText])
    else ([], [])
  match chunk scCfg bigText with
  | none => .error "small chunker error"
  | some smallPieces =>
    let smallItems := (enumerate 0 smallPieces).map
      (fun p => WorkItem.smallChunkItem bigIdx p.1 p.2)
    .ok (summaryPart.1 ++ smallItems, summaryPart.2 ++ smallPieces)

/-- The `for big_idx, big_text in enumerate(big_chunk_texts)` loop of step 2,
collecting work items and the flat embedding payload. -/
def buildWorkItems (scCfg : ChunkerCfg) (enableSummaries : Bool)
    (summaryO : Nat → Text → Except String Text) :
    List (Nat × Text) → Except String (List WorkItem × List Text)
  | [] => .ok ([], [])
  | (bigIdx, bigText) :: rest =>
    match bigStepItems scCfg enableSummaries summaryO bigIdx bigText with
    | .error e => .error e
    | .ok (items, payload) =>
      match buildWorkItems scCfg enableSummaries summaryO rest with
      | .error e => .error e
      | .ok (items', payload') => .ok (items ++ items', payload ++ payload')

/-- `NeoInserter._embed_in_batches`: embed the payload in slices of
`batch_size`, concatenating the results in order. -/
def embedInBatches (embedO : List Text → Except String (List Vec)) (batchSize : Nat)
    (payload : List Text) : Except String (List Vec) :=
  if payload.isEmpty then .ok []
  else
    (chunksOf batchSize payload).foldl
      (fun acc batch =>
        match acc with
        | .error e => .error e
        | .ok vecs =>
          match embedO batch with
          | .error e => .error e
          | .ok embeds => .ok (vecs ++ embeds))
      (.ok [])

/-- The failure handler of `insert`: in a separate transaction, mark the
bootstrap `File` row `failed` and store the exception message. -/
def markFailed (db : DB) (fid : Nat) (msg : String) : DB :=
  { db with
      files := db.files.map (fun r =>
        if r.id = fid then { r with status := .failed, errorMessage := some msg } else r) }

/-- Step 5 of `insert`, the single final transaction: mark the `File` row
`ok`, clear its error, and insert every `BigChunk`, summary and `SmallChunk`
row with its already-computed embedding (work items are regrouped by
`big_idx`, which preserves their per-table order). -/
def commitAll (db : DB) (fid : Nat) (bigTexts : List Text)
    (items : List (WorkItem × Vec)) : DB :=
  { db with
      files := db.files.map (fun r =>
        if r.id = fid then { r with status := .ok, errorMessage := none } else r)
      bigChunks := db.bigChunks ++ bigTexts.map (fun t => ⟨fid, t⟩)
      summaries := db.summaries ++ items.filterMap (fun iv =>
        match iv.1 with
        | .summaryItem _ t => some ⟨fid, t, iv.2⟩
        | _ => none)
      smallChunks := db.smallChunks ++ items.filterMap (fun iv =>
        match iv.1 with
        | .smallChunkItem _ _ t => some ⟨fid, t, iv.2⟩
        | _ => none) }

/-- `NeoInserter.insert`.  `fid` is the primary key the bootstrap `flush`
assigns to the new `File` row; `txnResult` is `some e` when the final
persistence transaction raises (its effects are then rolled back wholly).
The second component is the call's outcome: `.ok (some fid)` on success,
`.ok none` for the early `return None` when the chunker produced nothing,
`.error e` when the call re-raises after marking the document failed. -/
def insert (bcCfg scCfg : ChunkerCfg) (enableSummaries : Bool) (batchSize : Nat)
    (summaryO : Nat → Text → Except String Text)
    (embedO : List Text → Except String (List Vec)) (txnResult : Option String)
    (db : DB) (fid : Nat) (title : String) (text : Text) :
    DB × Except String (Option Nat) :=
  let db1 := { db with files := db.files ++ [⟨fid, title, .processing, none⟩] }
  match chunk bcCfg text with
  | none => (markFailed db1 fid "text splitter error", .error "text splitter error")
  | some bigChunkTexts =>
    if bigChunkTexts.isEmpty then (db1, .ok none)
    else
      match buildWorkItems scCfg enableSummaries summaryO (enumerate 0 bigChunkTexts) with
      | .error e => (markFailed db1 fid e, .error e)
      | .ok (workItems, payload) =>
        match embedInBatches embedO (max 1 batchSize) payload with
        | .error e => (markFailed db1 fid e, .error e)
        | .ok embeddings =>
          if embeddings.length ≠ workItems.length then
            (markFailed db1 fid "zip strict length mismatch",
              .error "zip strict length mismatch")
          else
            match txnResult with
            | some e => (markFailed db1 fid e, .error e)
            | none => (commitAll db1 fid bigChunkTexts (workItems.zip embeddings),
                .ok (some fid))

/-- The `NeoInserter` constructor defaults for the big chunker
(`chunk_size=5000, max_size=7000, min_size=3000`). -/
def defaultBcCfg : ChunkerCfg := ⟨7000, 5000, 3000, false⟩

/-- The `NeoInserter` constructor defaults for the small chunker
(`chunk_size=512, max_size=1024, min_size=256`). -/
def defaultScCfg : ChunkerCfg := ⟨1024, 512, 256, false⟩

/-- Status of the `File` row with the given id. -/
def fileStatusOf (db : DB) (fid : Nat) : Option FileStatus :=
  (db.files.find? (fun r => r.id = fid)).map (·.status)

/-- Error message of the `File` row with the given id. -/
def fileErrorOf (db : DB) (fid : Nat) : Option (Option String) :=
  (db.files.find? (fun r => r.id = fid)).map (·.errorMessage)

/-- No `BigChunk`, summary or `SmallChunk` row belongs to the document. -/
def noChunkRows (db : DB) (fid : Nat) : Bool :=
  db.bigChunks.all (fun r => r.fileId ≠ fid)
    && db.summaries.all (fun r => r.fileId ≠ fid)
    && db.smallChunks.all (fun r => r.fileId ≠ fid)

/-- Extract the summary texts of a work-item list. -/
def summaryTexts (items : List WorkItem) : List Text :=
  items.filterMap (fun i => match i with
    | .summaryItem _ t => some t
    | _ => none)

/-- Extract the small-chunk texts of a work-item list. -/
def smallTexts (items : List WorkItem) : List Text :=
  items.filterMap (fun i => match i with
    | .smallChunkItem _ _ t => some t
    | _ => none)

/-- The database produced by a fully successful `insert` of the text
`"hello"` into an empty database (big chunk `"hello"`, summary `"s"`, one
small chunk `"hello"`, embeddings modelled as empty vectors). -/
def insertSuccessDb : DB :=
  ⟨[⟨0, "t", .ok, none⟩], [⟨0, "hello".toList⟩],
    [⟨0, ['s'], []⟩], [⟨0, "hello".toList, []⟩]⟩

/-! ## Lemmas about the small-chunk merge step -/

theorem foldl_inv {α β : Type _} (P : β → Prop) (f : β → α → β) :
    ∀ (l : List α) (init : β), P init → (∀ b a, a ∈ l → P b → P (f b a)) →
      P (l.foldl f init) := by
  intro l
  induction l with
  | nil => intro init h0 _; exact h0
  | cons a t ih =>
    intro init h0 hstep
    exact ih (f init a) (hstep init a (by simp) h0)
      (fun b x hx hb => hstep b x (by simp [hx]) hb)

theorem mergeTDGo_mem (minS maxS : Nat) :
    ∀ (l : List Text) (x : Text), ∀ c ∈ mergeTDGo minS maxS x l,
      c = x ∨ c ∈ l ∨ c.length ≤ maxS := by
  intro l
  induction l with
  | nil =>
    intro x c hc
    simp only [mergeTDGo, List.mem_singleton] at hc
    left; exact hc
  | cons y rest ih =>
    intro x c hc
    rw [mergeTDGo] at hc
    split at hc
    · rename_i hcond
      simp only [Bool.and_eq_true, decide_eq_true_eq] at hcond
      rcases ih (x ++ y) c hc with h | h | h
      · right; right; rw [h]; exact hcond.2
      · right; left; simp [h]
      · right; right; exact h
    · rcases List.mem_cons.mp hc with h | h
      · left; exact h
      · rcases ih y c h with h2 | h2 | h2
        · right; left; simp [h2]
        · right; left; simp [h2]
        · right; right; exact h2

theorem mergeTD_mem (minS maxS : Nat) :
    ∀ (l : List Text), ∀ c ∈ mergeTD minS maxS l, c ∈ l ∨ c.length ≤ maxS := by
  intro l c hc
  match l with
  | [] => simp [mergeTD] at hc
  | x :: rest =>
    rw [mergeTD] at hc
    rcases mergeTDGo_mem minS maxS rest x c hc with h | h | h
    · left; simp [h]
    · left; simp [h]
    · right; exact h

theorem mergeTDGo_flatten (minS maxS : Nat) :
    ∀ (l : List Text) (x : Text),
      (mergeTDGo minS maxS x l).flatten = x ++ l.flatten := by
  intro l
  induction l with
  | nil => intro x; simp [mergeTDGo]
  | cons y rest ih =>
    intro x
    rw [mergeTDGo]
    split
    · rw [ih (x ++ y)]
      simp
    · simp only [List.flatten_cons, ih y]

theorem mergeTD_flatten (minS maxS : Nat) :
    ∀ (l : List Text), (mergeTD minS maxS l).flatten = l.flatten := by
  intro l
  match l with
  | [] => rfl
  | x :: rest =>
    rw [mergeTD, mergeTDGo_flatten]
    simp

theorem flatten_set_eraseIdx (l : List Text) (j : Nat) (h2 : j + 1 < l.length) :
    ((l.set j (l.get ⟨j, by omega⟩ ++ l.get ⟨j + 1, h2⟩)).eraseIdx (j + 1)).flatten
      = l.flatten := by
  induction l generalizing j with
  | nil => simp at h2
  | cons a t ih =>
    match j with
    | 0 =>
      match t, h2 with
      | b :: t', _ => simp
    | k + 1 =>
      have hk : k + 1 < t.length := by
        simp only [List.length_cons] at h2; omega
      have := ih k hk
      simp only [List.set_cons_succ, List.eraseIdx_cons_succ, List.flatten_cons,
        List.get_cons_succ]
      rw [this]

theorem mergeBU_mem (minS maxS : Nat) :
    ∀ (l : List Text) (i : Nat), ∀ c ∈ mergeBU minS maxS l i, c ∈ l ∨ c.length ≤ maxS := by
  intro l i
  induction l, i using mergeBU.induct minS maxS with
  | case1 l i h cur prev hcond l2 ih =>
    intro c hc
    rw [mergeBU, dif_pos h, if_pos hcond] at hc
    rcases ih c hc with h2 | h2
    · have := List.mem_of_mem_eraseIdx h2
      rcases List.mem_or_eq_of_mem_set this with h3 | h3
      · left; exact h3
      · right
        simp only [Bool.and_eq_true, decide_eq_true_eq] at hcond
        rw [h3]
        exact hcond.2
    · right; exact h2
  | case2 l i h cur prev hcond ih =>
    intro c hc
    rw [mergeBU, dif_pos h, if_neg hcond] at hc
    exact ih c hc
  | case3 l i h =>
    intro c hc
    rw [mergeBU, dif_neg h] at hc
    left; exact hc

theorem mergeBU_flatten (minS maxS : Nat) :
    ∀ (l : List Text) (i : Nat), (mergeBU minS maxS l i).flatten = l.flatten := by
  intro l i
  induction l, i using mergeBU.induct minS maxS with
  | case1 l i h cur prev hcond l2 ih =>
    rw [mergeBU, dif_pos h, if_pos hcond]
    rw [ih]
    obtain ⟨j, rfl⟩ : ∃ j, i = j + 1 := ⟨i - 1, by omega⟩
    exact flatten_set_eraseIdx l j h.2
  | case2 l i h cur prev hcond ih =>
    rw [mergeBU, dif_pos h, if_neg hcond]
    exact ih
  | case3 l i h =>
    rw [mergeBU, dif_neg h]

theorem mergeSmallChunks_mem (cfg : ChunkerCfg) (l : List Text) :
    ∀ c ∈ mergeSmallChunks cfg l, c ∈ l ∨ c.length ≤ cfg.maxSize := by
  intro c hc
  unfold mergeSmallChunks at hc
  split at hc
  · left; exact hc
  · split at hc
    · exact mergeBU_mem _ _ _ _ c hc
    · exact mergeTD_mem _ _ _ c hc

theorem mergeSmallChunks_flatten (cfg : ChunkerCfg) (l : List Text) :
    (mergeSmallChunks cfg l).flatten = l.flatten := by
  unfold mergeSmallChunks
  split
  · rfl
  · split
    · exact mergeBU_flatten _ _ _ _
    · exact mergeTD_flatten _ _ _

/-! ## Chunk-size bound for `chunk` -/

theorem chunksOfGo_len_le (cap0 : Nat) :
    ∀ (l acc : Text) (cap : Nat), acc.length + cap ≤ max cap0 1 →
      ∀ p ∈ chunksOfGo cap0 l acc cap, p.length ≤ max cap0 1 := by
  intro l
  induction l with
  | nil =>
    intro acc cap hacc p hp
    rw [chunksOfGo] at hp
    split at hp
    · simp at hp
    · simp only [List.mem_singleton] at hp
      rw [hp, List.length_reverse]
      omega
  | cons c rest ih =>
    intro acc cap hacc p hp
    have hstart : (1 : Nat) + (cap0 - 1) ≤ max cap0 1 := by omega
    match cap with
    | 0 =>
      rw [chunksOfGo] at hp
      split at hp
      · exact ih [c] (cap0 - 1) hstart p hp
      · rcases List.mem_cons.mp hp with h | h
        · rw [h, List.length_reverse]
          omega
        · exact ih [c] (cap0 - 1) hstart p h
    | k + 1 =>
      rw [chunksOfGo] at hp
      refine ih (c :: acc) k ?_ p hp
      simp only [List.length_cons] at *
      omega

theorem chunksOf_len_le (n : Nat) :
    ∀ (l : Text), ∀ p ∈ chunksOf n l, p.length ≤ max n 1 := by
  intro l p hp
  exact chunksOfGo_len_le n l [] n (by simp) p hp

theorem fallback_bound (cfg : ChunkerCfg) (hmax : 0 < cfg.maxSize)
    (hlt : cfg.chunkSize < cfg.maxSize) (s : Text) (ps : List Text)
    (hres : fallbackSplitWithHeaders cfg s = some ps) :
    ∀ p ∈ ps, p.length ≤ cfg.maxSize := by
  intro p hp
  simp only [fallbackSplitWithHeaders] at hres
  by_cases hsign : (cfg.chunkSize : Int) - (headerBlockLen s : Int) < 0
  · rw [if_pos hsign] at hres
    exact absurd hres (by simp)
  · rw [if_neg hsign] at hres
    have hhl2 : headerBlockLen s ≤ cfg.chunkSize := by omega
    have htn : ((cfg.chunkSize : Int) - (headerBlockLen s : Int)).toNat
        = cfg.chunkSize - headerBlockLen s := by omega
    by_cases hhl : headerBlockLen s = 0
    · rw [if_pos hhl] at hres
      rw [Option.some.injEq] at hres
      subst hres
      have hb := chunksOf_len_le _ _ p hp
      rw [htn, hhl, Nat.sub_zero] at hb
      exact le_trans hb (max_le (le_of_lt hlt) hmax)
    · rw [if_neg hhl] at hres
      rw [Option.some.injEq] at hres
      subst hres
      rcases List.mem_map.mp hp with ⟨c, hc, rfl⟩
      have hb := chunksOf_len_le _ _ c hc
      rw [htn] at hb
      have hb2 : c.length ≤ cfg.chunkSize - headerBlockLen s + 1 :=
        le_trans hb (max_le (Nat.le_succ _) (by omega))
      have h1 : (List.take (headerBlockLen s) s).length ≤ headerBlockLen s :=
        List.length_take_le _ _
      rw [List.length_append]
      omega

theorem levelPass_chunks_bound (cfg : ChunkerCfg) (level : Nat) (ov chunks : List Text)
    (h : ∀ c ∈ chunks, c.length ≤ cfg.chunkSize) :
    ∀ c ∈ (levelPass cfg level ov chunks).1, c.length ≤ cfg.chunkSize := by
  unfold levelPass
  refine foldl_inv
    (fun (acc : List Text × List Text) => ∀ c ∈ acc.1, c.length ≤ cfg.chunkSize)
    _ ov (chunks, []) h ?_
  intro b piece _ hb
  dsimp only
  split
  · rename_i hle
    intro c hc
    rcases List.mem_append.mp hc with h2 | h2
    · exact hb c h2
    · simp only [List.mem_singleton] at h2
      rw [h2]; exact hle
  · split
    · exact hb
    · refine foldl_inv
        (fun (acc : List Text × List Text) => ∀ c ∈ acc.1, c.length ≤ cfg.chunkSize)
        _ _ b hb ?_
      intro b2 sub _ hb2
      dsimp only
      split
      · rename_i hle
        intro c hc
        rcases List.mem_append.mp hc with h2 | h2
        · exact hb2 c h2
        · simp only [List.mem_singleton] at h2
          rw [h2]; exact hle
      · exact hb2

theorem levelLoop_chunks_bound (cfg : ChunkerCfg) :
    ∀ (n : Nat) (ov chunks : List Text), (∀ c ∈ chunks, c.length ≤ cfg.chunkSize) →
      ∀ c ∈ (levelLoop cfg n ov chunks).1, c.length ≤ cfg.chunkSize := by
  intro n
  induction n with
  | zero => intro ov chunks h; exact h
  | succ m ih =>
    intro ov chunks h
    exact ih _ _ (levelPass_chunks_bound cfg _ ov chunks h)

theorem splitRecursively_bound (cfg : ChunkerCfg) (hmax : 0 < cfg.maxSize)
    (hlt : cfg.chunkSize < cfg.maxSize) (s : Text) (cs : List Text)
    (hres : splitRecursively cfg s = some cs) :
    ∀ c ∈ cs, c.length ≤ cfg.maxSize := by
  simp only [splitRecursively] at hres
  have hmerged : ∀ c ∈ mergeSmallChunks cfg (levelLoop cfg 6 [s] []).1, c.length ≤ cfg.maxSize := by
    intro c hc
    rcases mergeSmallChunks_mem cfg _ c hc with h | h
    · have := levelLoop_chunks_bound cfg 6 [s] [] (by simp) c h
      omega
    · exact h
  have hstep : ∀ (b : Option (List Text)) (remainder : Text),
      remainder ∈ (levelLoop cfg 6 [s] []).2 →
      (∀ l, b = some l → ∀ c ∈ l, c.length ≤ cfg.maxSize) →
      ∀ l, remainderStep cfg b remainder = some l →
        ∀ c ∈ l, c.length ≤ cfg.maxSize := by
    intro b remainder _ hb
    match b with
    | none => intro l hl; simp [remainderStep] at hl
    | some cs0 =>
      unfold remainderStep
      dsimp only
      split
      · rename_i hgt
        match hfb : fallbackSplitWithHeaders cfg remainder with
        | none => intro l hl; simp at hl
        | some fb =>
          intro l hl
          rw [Option.some.injEq] at hl
          subst hl
          intro c hc
          rcases List.mem_append.mp hc with h2 | h2
          · exact hb cs0 rfl c h2
          · exact fallback_bound cfg hmax hlt remainder fb hfb c h2
      · rename_i hng
        intro l hl
        rw [Option.some.injEq] at hl
        subst hl
        intro c hc
        rcases List.mem_append.mp hc with h2 | h2
        · exact hb cs0 rfl c h2
        · simp only [List.mem_singleton] at h2
          rw [h2]; omega
  have key := foldl_inv
    (fun (acc : Option (List Text)) => ∀ l, acc = some l → ∀ c ∈ l, c.length ≤ cfg.maxSize)
    (remainderStep cfg) (levelLoop cfg 6 [s] []).2
    (some (mergeSmallChunks cfg (levelLoop cfg 6 [s] []).1))
    (by intro l hl; rw [Option.some.injEq] at hl; subst hl; exact hmerged)
    hstep
  exact key cs hres

/-! ## Claim C1 (corrected), C8 and C10 -/

/-- C1 (amended): for every input text and every chunker configuration with
`max_size > 0`, `0 < chunk_size`, `chunk_size < max_size` (strengthened from
`chunk_size ≤ max_size`) and `min_size ≤ max_size`, every string in the list
returned by `GoldenChunker.chunk` has length ≤ `max_size`. -/
theorem chunk_chunks_within_maxSize (cfg : ChunkerCfg) (s : Text) (cs : List Text)
    (hmax : 0 < cfg.maxSize) (hcs : 0 < cfg.chunkSize) (hlt : cfg.chunkSize < cfg.maxSize)
    (hmin : cfg.minSize ≤ cfg.maxSize) (hres : chunk cfg s = some cs) :
    ∀ c ∈ cs, c.length ≤ cfg.maxSize := by
  unfold chunk at hres
  have hstep : ∀ (b : Option (List Text)) (section_ : Text),
      section_ ∈ splitBySection s →
      (∀ l, b = some l → ∀ c ∈ l, c.length ≤ cfg.maxSize) →
      ∀ l, sectionStep cfg b section_ = some l → ∀ c ∈ l, c.length ≤ cfg.maxSize := by
    intro b section_ _ hb
    match b with
    | none => intro l hl; simp [sectionStep] at hl
    | some cs0 =>
      unfold sectionStep
      dsimp only
      split
      · rename_i hle
        intro l hl
        rw [Option.some.injEq] at hl
        subst hl
        intro c hc
        rcases List.mem_append.mp hc with h2 | h2
        · exact hb cs0 rfl c h2
        · simp only [List.mem_singleton] at h2
          rw [h2]; omega
      · match hsr : splitRecursively cfg section_ with
        | none => intro l hl; simp at hl
        | some sub =>
          intro l hl
          rw [Option.some.injEq] at hl
          subst hl
          intro c hc
          rcases List.mem_append.mp hc with h2 | h2
          · exact hb cs0 rfl c h2
          · exact splitRecursively_bound cfg hmax hlt section_ sub hsr c h2
  have key := foldl_inv
    (fun (acc : Option (List Text)) => ∀ l, acc = some l → ∀ c ∈ l, c.length ≤ cfg.maxSize)
    (sectionStep cfg) (splitBySection s) (some [])
    (by intro l hl; rw [Option.some.injEq] at hl; subst hl; simp)
    hstep
  exact key cs hres

/-- Witness for C1 (amended) at a concrete configuration and input. -/
theorem chunk_chunks_within_maxSize_witness :
    chunk ⟨7, 5, 3, false⟩ "hello".toList = some ["hello".toList]
      ∧ ∀ c ∈ ["hello".toList], c.length ≤ (7 : Nat) :=
  ⟨by decide,
    by
      have h := chunk_chunks_within_maxSize ⟨7, 5, 3, false⟩ "hello".toList
        ["hello".toList] (by decide) (by decide) (by decide) (by decide) (by decide)
      exact h⟩

/-- Counterexample to C1 as stated: with the valid configuration
`max_size = chunk_size = 4`, `min_size = 0` (so `max_size > 0`,
`chunk_size ≤ max_size`, `min_size ≤ max_size`), the input `"# a\nbbbb"` is
chunked into four copies of `"# a\nb"` of length 5 > `max_size`: the whole
preferred size is consumed by the heading prefix, so the fallback splitter
runs with effective size 0 and every produced piece exceeds `max_size` once
the heading is re-attached. -/
theorem chunk_exceeds_maxSize_at_full_header :
    chunk ⟨4, 4, 0, false⟩ "# a\nbbbb".toList
        = some ["# a\nb".toList, "# a\nb".toList, "# a\nb".toList, "# a\nb".toList]
      ∧ ((chunk ⟨4, 4, 0, false⟩ "# a\nbbbb".toList).getD []).any
          (fun c => decide ((4 : Nat) < c.length)) = true := by
  constructor
  · decide
  · decide

/-- C8: every chunk produced by the small-chunk merge step is either an input
chunk left unmerged, or a merge result of length ≤ `max_size`; a merge whose
result would exceed `max_size` is never performed. -/
theorem merge_step_respects_maxSize (cfg : ChunkerCfg) (l : List Text) :
    ∀ c ∈ mergeSmallChunks cfg l, c ∈ l ∨ c.length ≤ cfg.maxSize :=
  mergeSmallChunks_mem cfg l

/-- Witness for C8 at a concrete merge that actually glues two chunks. -/
theorem merge_step_respects_maxSize_witness :
    "abb".toList ∈ mergeSmallChunks ⟨4, 3, 2, false⟩ ["a".toList, "bb".toList]
      ∧ ("abb".toList ∈ ["a".toList, "bb".toList] ∨ "abb".toList.length ≤ (4 : Nat)) :=
  ⟨by decide,
    merge_step_respects_maxSize ⟨4, 3, 2, false⟩ ["a".toList, "bb".toList]
      "abb".toList (by decide)⟩

/-- C10: for every input chunk list and both merge directions, the small-chunk
merge step preserves the document text: the concatenation of the output chunks
equals the concatenation of the input chunks. -/
theorem merge_step_preserves_document_text (cfg : ChunkerCfg) (l : List Text) :
    (mergeSmallChunks cfg l).flatten = l.flatten :=
  mergeSmallChunks_flatten cfg l

/-! ## Lemmas about `maybe_summarise` and claim C4 -/

theorem evictLoop_getLast (tc : List HMsg → Nat) (thr : Nat) :
    ∀ (l : List HMsg), l ≠ [] → (evictLoop tc thr l).getLast? = l.getLast? := by
  intro l
  induction l with
  | nil => intro h; exact absurd rfl h
  | cons m rest ih =>
    intro _
    rw [evictLoop]
    split
    · rename_i hcond
      simp only [Bool.and_eq_true, Bool.not_eq_true', List.isEmpty_eq_false] at hcond
      rw [ih hcond.2]
      match rest, hcond.2 with
      | r :: rs, _ => rw [List.getLast?_cons_cons]
    · rfl

theorem evictLoop_ne_nil (tc : List HMsg → Nat) (thr : Nat) :
    ∀ (l : List HMsg), l ≠ [] → evictLoop tc thr l ≠ [] := by
  intro l
  induction l with
  | nil => intro h; exact absurd rfl h
  | cons m rest ih =>
    intro _
    rw [evictLoop]
    split
    · rename_i hcond
      simp only [Bool.and_eq_true, Bool.not_eq_true', List.isEmpty_eq_false] at hcond
      exact ih hcond.2
    · simp

theorem evictLoop_budget (tc : List HMsg → Nat) (thr : Nat) :
    ∀ (l : List HMsg), 2 ≤ (evictLoop tc thr l).length → tc (evictLoop tc thr l) ≤ thr := by
  intro l
  induction l with
  | nil => intro h; simp [evictLoop] at h
  | cons m rest ih =>
    rw [evictLoop]
    split
    · exact ih
    · rename_i hcond
      intro hlen
      simp only [Bool.and_eq_true, decide_eq_true_eq, Bool.not_eq_true',
        List.isEmpty_eq_false, not_and] at hcond
      have hrne : rest ≠ [] := by
        intro h
        rw [h] at hlen
        simp at hlen
      by_contra hgt
      push_neg at hgt
      exact (hcond hgt) hrne

theorem evictLoop_suffix (tc : List HMsg → Nat) (thr : Nat) :
    ∀ (l : List HMsg), (evictLoop tc thr l).IsSuffix l := by
  intro l
  induction l with
  | nil => simp [evictLoop]
  | cons m rest ih =>
    rw [evictLoop]
    split
    · exact ih.trans (List.suffix_cons m rest)
    · exact List.suffix_refl _

theorem flushToDb_of_all_persisted (l : List HMsg)
    (h : ∀ m ∈ l, m.persisted = true) : flushToDb l = l := by
  unfold flushToDb
  induction l with
  | nil => rfl
  | cons m rest ih =>
    simp only [List.map_cons]
    have hm := h m (by simp)
    have : ({ m with persisted := true } : HMsg) = m := by
      cases m
      simp_all
    rw [this, ih (fun x hx => h x (by simp [hx]))]

/-- C4: after `maybe_summarise` returns, the entry that was most recent before
the call is still the most recent entry of the transcript, and whenever the
transcript still holds ≥ 2 entries, its token count is within the budget. -/
theorem maybe_summarise_keeps_latest_within_budget (tc : List HMsg → Nat) (thr : Nat)
    (summaryText : String) (msgs : List HMsg) (hne : msgs ≠ []) :
    ∃ out, maybeSummarise tc thr summaryText msgs = some out
      ∧ (∃ last0 last1, msgs.getLast? = some last0 ∧ out.1.getLast? = some last1
          ∧ last1.id = last0.id ∧ last1.role = last0.role ∧ last1.content = last0.content)
      ∧ (2 ≤ out.1.length → tc out.1 ≤ thr) := by
  obtain ⟨last0, hlast0⟩ : ∃ last0, msgs.getLast? = some last0 :=
    ⟨msgs.getLast hne, List.getLast?_eq_getLast_of_ne_nil hne⟩
  unfold maybeSummarise
  split
  · rename_i hlt
    exact ⟨(msgs, none), rfl, ⟨last0, last0, hlast0, hlast0, rfl, rfl, rfl⟩,
      fun _ => le_of_lt hlt⟩
  · have hfne : flushToDb msgs ≠ [] := by
      unfold flushToDb
      simp [hne]
    have htne := evictLoop_ne_nil tc thr (flushToDb msgs) hfne
    match htr : evictLoop tc thr (flushToDb msgs) with
    | [] => exact absurd htr htne
    | t :: ts =>
      simp only [htr]
      refine ⟨(flushToDb (t :: ts), some summaryText), rfl, ?_, ?_⟩
      · have h1 : (evictLoop tc thr (flushToDb msgs)).getLast? = (flushToDb msgs).getLast? :=
          evictLoop_getLast tc thr _ hfne
        have h2 : (flushToDb msgs).getLast? = some { last0 with persisted := true } := by
          unfold flushToDb
          rw [List.getLast?_map, hlast0]
          rfl
        have hpers : ∀ m ∈ t :: ts, m.persisted = true := by
          intro m hm
          have := (evictLoop_suffix tc thr (flushToDb msgs)).subset (htr ▸ hm)
          unfold flushToDb at this
          rcases List.mem_map.mp this with ⟨x, _, hx⟩
          rw [← hx]
        rw [flushToDb_of_all_persisted _ hpers]
        refine ⟨last0, { last0 with persisted := true }, hlast0, ?_, rfl, rfl, rfl⟩
        rw [← htr, h1, h2]
      · intro hlen
        have hpers : ∀ m ∈ t :: ts, m.persisted = true := by
          intro m hm
          have := (evictLoop_suffix tc thr (flushToDb msgs)).subset (htr ▸ hm)
          unfold flushToDb at this
          rcases List.mem_map.mp this with ⟨x, _, hx⟩
          rw [← hx]
        rw [flushToDb_of_all_persisted _ hpers] at hlen ⊢
        have := evictLoop_budget tc thr (flushToDb msgs)
        rw [htr] at this
        exact this hlen

/-- Witness for C4 on a concrete over-budget transcript. -/
theorem maybe_summarise_keeps_latest_within_budget_witness :
    ([⟨"a", "user", "u1", false⟩, ⟨"b", "assistant", "a1", false⟩,
        ⟨"c", "user", "u2", false⟩] : List HMsg) ≠ []
    ∧ ∃ out, maybeSummarise (fun l => l.length * 10) 25 "sum"
          [⟨"a", "user", "u1", false⟩, ⟨"b", "assistant", "a1", false⟩,
            ⟨"c", "user", "u2", false⟩] = some out
        ∧ (∃ last0 last1,
            ([⟨"a", "user", "u1", false⟩, ⟨"b", "assistant", "a1", false⟩,
                ⟨"c", "user", "u2", false⟩] : List HMsg).getLast? = some last0
              ∧ out.1.getLast? = some last1
              ∧ last1.id = last0.id ∧ last1.role = last0.role
              ∧ last1.content = last0.content)
        ∧ (2 ≤ out.1.length → (fun (l : List HMsg) => l.length * 10) out.1 ≤ 25) :=
  ⟨by simp,
    maybe_summarise_keeps_latest_within_budget (fun l => l.length * 10) 25 "sum"
      [⟨"a", "user", "u1", false⟩, ⟨"b", "assistant", "a1", false⟩,
        ⟨"c", "user", "u2", false⟩] (by simp)⟩

/-! ## Claim C9: query rewriting on an empty transcript -/

/-- C9: for every query and every behaviour of the generation service,
`rewrite(q, [])` returns `q` unchanged and never invokes the generation
service (the returned flag records an invocation). -/
theorem rewrite_empty_history_identity (genO : String → String) (maxTokens : Nat)
    (query : String) : rewrite genO maxTokens query [] = (query, false) :=
  rfl

/-! ## Claim C3: streaming abort semantics -/

theorem streamAccum_eq (ts : List String) :
    ∀ acc, streamAccum acc ts = acc ++ ts := by
  induction ts with
  | nil => intro acc; simp [streamAccum]
  | cons t ts ih =>
    intro acc
    rw [streamAccum, ih]
    simp

/-- C3 counterexample: a first-turn abort (no title generated yet) with a
non-empty partial reaches the `generate_title` call inside the
except-handler; when the title service also fails, that exception
propagates to the caller instead of `GenerationAborted` — the
`raise GenerationAborted(partial)` line never runs (the transcript does
retain both new entries, since the `history.add` calls precede the title
step). -/
theorem stream_abort_title_failure_masks_aborted :
    streamResponse (fun l => l.length) 1000 "sum" (.error "title service down")
        false [] "hi" "u1" "a1" ["Hello "] (some "connection reset")
      = { hist := [⟨"u1", "user", "hi", false⟩,
            ⟨"a1", "assistant", String.join ["Hello "], false⟩]
          titleSet := none
          abortedPartial := none
          otherRaised := some "title service down"
          completed := none } := rfl

/-- C3 (amended: provided the conversation title has already been generated
or the follow-up title-generation call returns normally; a title-generation
failure propagates instead of `GenerationAborted`, see the counterexample):
if the generation stream raises after yielding `tokens`, the turn is still
finalised — the transcript gains the user entry and an assistant entry
whose content is exactly the concatenation of the yielded tokens — and the
raised `GenerationAborted` carries that same string as its partial text. -/
theorem stream_abort_finalises_partial (tc : List HMsg → Nat) (thr : Nat)
    (summaryText : String) (titleO : Except String String) (titleGenerated : Bool)
    (hist : List HMsg) (userText userMsgId assistantMsgId : String)
    (tokens : List String) (failure : Option String) (e : String)
    (hfail : failure = some e)
    (htitle : titleGenerated = true ∨ ∃ t, titleO = .ok t) :
    (streamResponse tc thr summaryText titleO titleGenerated hist userText
        userMsgId assistantMsgId tokens failure).hist
      = hist ++ [⟨userMsgId, "user", userText, false⟩,
          ⟨assistantMsgId, "assistant", String.join tokens, false⟩]
    ∧ (streamResponse tc thr summaryText titleO titleGenerated hist userText
        userMsgId assistantMsgId tokens failure).abortedPartial
      = some (String.join tokens)
    ∧ (streamResponse tc thr summaryText titleO titleGenerated hist userText
        userMsgId assistantMsgId tokens failure).otherRaised = none
    ∧ (streamResponse tc thr summaryText titleO titleGenerated hist userText
        userMsgId assistantMsgId tokens failure).completed = none := by
  subst hfail
  unfold streamResponse
  rw [streamAccum_eq tokens []]
  simp only [List.nil_append]
  unfold finaliseTurn
  by_cases hcond : (!titleGenerated && !(String.join tokens).isEmpty
      && !(hist ++ [⟨userMsgId, "user", userText, false⟩,
            ⟨assistantMsgId, "assistant", String.join tokens, false⟩]
              : List HMsg).isEmpty) = true
  · rw [if_pos hcond]
    have hg : titleGenerated = false := by
      cases titleGenerated
      · rfl
      · simp at hcond
    rcases htitle with h | ⟨t, ht⟩
    · rw [hg] at h
      exact absurd h (by simp)
    · rw [ht]
      exact ⟨rfl, rfl, rfl, rfl⟩
  · rw [if_neg hcond]
    exact ⟨rfl, rfl, rfl, rfl⟩

/-- Witness for C3: the spec scenario, a stream failing after yielding
`"Hello "` on a turn whose title-generation call returns normally. -/
theorem stream_abort_finalises_partial_witness :
    ((some "connection reset" : Option String) = some "connection reset"
      ∧ (false = true ∨ ∃ t, (.ok "Title" : Except String String) = .ok t))
      ∧ ((streamResponse (fun l => l.length) 1000 "sum" (.ok "Title") false []
            "hi" "u1" "a1" ["Hello "] (some "connection reset")).hist
          = [⟨"u1", "user", "hi", false⟩,
              ⟨"a1", "assistant", String.join ["Hello "], false⟩]
        ∧ (streamResponse (fun l => l.length) 1000 "sum" (.ok "Title") false []
            "hi" "u1" "a1" ["Hello "] (some "connection reset")).abortedPartial
          = some (String.join ["Hello "])
        ∧ (streamResponse (fun l => l.length) 1000 "sum" (.ok "Title") false []
            "hi" "u1" "a1" ["Hello "] (some "connection reset")).otherRaised = none
        ∧ (streamResponse (fun l => l.length) 1000 "sum" (.ok "Title") false []
            "hi" "u1" "a1" ["Hello "] (some "connection reset")).completed = none) :=
  ⟨⟨rfl, Or.inr ⟨"Title", rfl⟩⟩,
    stream_abort_finalises_partial (fun l => l.length) 1000 "sum" (.ok "Title")
      false [] "hi" "u1" "a1" ["Hello "] (some "connection reset")
      "connection reset" rfl (Or.inr ⟨"Title", rfl⟩)⟩

/-! ## Lemmas about `_merge_scores` and claim C6 -/

theorem lookup_map_upd (k k' : Nat) (d : Score) :
    ∀ (m : List (Nat × Score)),
      (m.map (fun p => if p.1 = k' then (p.1, p.2 + d) else p)).lookup k
        = if k = k' then (m.lookup k).map (· + d) else m.lookup k := by
  intro m
  induction m with
  | nil => simp [List.lookup]
  | cons p rest ih =>
    simp only [List.map_cons]
    by_cases hpk : p.1 = k'
    · rw [if_pos hpk]
      by_cases hk : k = k'
      · have hbeq : (k == p.1) = true := by rw [hk, hpk]; exact beq_self_eq_true _
        simp only [List.lookup, hbeq, if_pos hk]
        rfl
      · have hne : k ≠ p.1 := by rw [hpk]; exact hk
        simp only [List.lookup, beq_false_of_ne hne, if_neg hk]
        rw [ih, if_neg hk]
    · rw [if_neg hpk]
      by_cases hkp : k = p.1
      · have hk : ¬(k = k') := by rw [hkp]; exact hpk
        have hbeq : (k == p.1) = true := by rw [hkp]; exact beq_self_eq_true _
        simp only [List.lookup, hbeq, if_neg hk]
      · simp only [List.lookup, beq_false_of_ne hkp]
        rw [ih]

theorem lookup_append_single (k k' : Nat) (d : Score) :
    ∀ (m : List (Nat × Score)),
      (m ++ [(k', d)]).lookup k
        = match m.lookup k with
          | some v => some v
          | none => if k = k' then some d else none := by
  intro m
  induction m with
  | nil =>
    by_cases hk : k = k'
    · simp [List.lookup, hk]
    · simp [List.lookup, beq_false_of_ne hk, hk]
  | cons p rest ih =>
    by_cases hkp : k = p.1
    · simp [List.lookup, hkp]
    · simp [List.lookup, beq_false_of_ne hkp, ih]

theorem any_key_iff (k : Nat) :
    ∀ (m : List (Nat × Score)),
      m.any (fun p => p.1 = k) = true ↔ ∃ v, m.lookup k = some v := by
  intro m
  induction m with
  | nil => simp [List.lookup]
  | cons p rest ih =>
    by_cases hkp : k = p.1
    · simp [List.lookup, hkp]
    · have : ¬(p.1 = k) := fun h => hkp h.symm
      simp [List.lookup, beq_false_of_ne hkp, this, ih]

theorem lookup_updAdd_present (m : List (Nat × Score)) (k : Nat) (d : Score) (v : Score)
    (hv : m.lookup k = some v) : (updAdd m k d).lookup k = some (v + d) := by
  unfold updAdd
  rw [if_pos ((any_key_iff k m).mpr ⟨v, hv⟩)]
  rw [lookup_map_upd, if_pos rfl, hv]
  rfl

theorem lookup_updAdd_absent (m : List (Nat × Score)) (k : Nat) (d : Score)
    (hv : m.lookup k = none) : (updAdd m k d).lookup k = some d := by
  unfold updAdd
  rw [if_neg, lookup_append_single, hv, if_pos rfl]
  intro h
  rcases (any_key_iff k m).mp h with ⟨v, hv2⟩
  rw [hv] at hv2
  exact Option.noConfusion hv2

theorem lookup_updAdd_other (m : List (Nat × Score)) (k k' : Nat) (d : Score)
    (hk : k ≠ k') : (updAdd m k' d).lookup k = m.lookup k := by
  unfold updAdd
  split
  · rw [lookup_map_upd, if_neg hk]
  · rw [lookup_append_single, if_neg hk]
    match m.lookup k with
    | some v => rfl
    | none => rfl

theorem lookup_eq_none_of_not_key (k : Nat) (m : List (Nat × Score))
    (h : ¬ ∃ v, m.lookup k = some v) : m.lookup k = none := by
  match hm : m.lookup k with
  | none => rfl
  | some v => exact absurd ⟨v, hm⟩ h

theorem lookup_some_mem_keys :
    ∀ (m : List (Nat × Score)) (k : Nat) (v : Score),
      m.lookup k = some v → k ∈ m.map Prod.fst := by
  intro m
  induction m with
  | nil => intro k v hv; simp [List.lookup] at hv
  | cons q rest ih =>
    intro k v hv
    simp only [List.lookup] at hv
    by_cases hq : k = q.1
    · simp [hq]
    · rw [beq_false_of_ne hq] at hv
      simp only [List.map_cons, List.mem_cons]
      exact Or.inr (ih k v hv)

theorem lookup_foldl_updAdd (c : Score) (k : Nat) :
    ∀ (l m0 : List (Nat × Score)), (l.map Prod.fst).Nodup →
      (l.foldl (fun m p => updAdd m p.1 (c * p.2)) m0).lookup k
        = match l.lookup k with
          | some v => some (((m0.lookup k).getD 0) + c * v)
          | none => m0.lookup k := by
  intro l
  induction l with
  | nil => intro m0 _; rfl
  | cons p rest ih =>
    intro m0 hnd
    simp only [List.map_cons, List.nodup_cons] at hnd
    rw [List.foldl_cons]
    rw [ih (updAdd m0 p.1 (c * p.2)) hnd.2]
    by_cases hk : k = p.1
    · have hrest : List.lookup k rest = none := by
        apply lookup_eq_none_of_not_key
        rintro ⟨v, hv⟩
        exact hnd.1 (hk ▸ lookup_some_mem_keys rest k v hv)
      have hbeq : (k == p.1) = true := by rw [hk]; exact beq_self_eq_true _
      have hhead : List.lookup k (p :: rest) = some p.2 := by
        simp only [List.lookup, hbeq]
      rw [hrest, hhead, ← hk]
      match hm0 : List.lookup k m0 with
      | some v0 => rw [lookup_updAdd_present m0 k _ v0 hm0]; rfl
      | none => rw [lookup_updAdd_absent m0 k _ hm0]; simp
    · have hhead : List.lookup k (p :: rest) = List.lookup k rest := by
        simp [List.lookup, beq_false_of_ne hk]
      rw [hhead, lookup_updAdd_other m0 k p.1 _ hk]

theorem lookup_mergeScores (alpha : Score) (summaryScores smallChunkScores : List (Nat × Score))
    (hsu : (summaryScores.map Prod.fst).Nodup) (hsm : (smallChunkScores.map Prod.fst).Nodup)
    (k : Nat) :
    (mergeScores alpha summaryScores smallChunkScores).lookup k
      = match smallChunkScores.lookup k, summaryScores.lookup k with
        | some v, some w => some (alpha * v + (1 - alpha) * w)
        | some v, none => some (alpha * v)
        | none, some w => some ((1 - alpha) * w)
        | none, none => none := by
  unfold mergeScores
  rw [lookup_foldl_updAdd (1 - alpha) k summaryScores _ hsu]
  rw [lookup_foldl_updAdd alpha k smallChunkScores [] hsm]
  match hsm2 : smallChunkScores.lookup k, hsu2 : summaryScores.lookup k with
  | some v, some w =>
    simp only [List.lookup, Option.getD_some, Option.getD_none]
    rw [zero_add]
  | some v, none =>
    simp only [List.lookup, Option.getD_none]
    rw [zero_add]
  | none, some w =>
    simp only [List.lookup, Option.getD_none]
    rw [zero_add]
  | none, none => rfl

/-- C6: for chunk-id maps with distinct keys, the fused score of a chunk
present in both similarity maps is `alpha * small + (1 - alpha) * summary`,
and a chunk present in only one map gets exactly the single corresponding
weighted term (the missing signal contributes 0). -/
theorem merge_scores_fusion (alpha : Score)
    (summaryScores smallChunkScores : List (Nat × Score))
    (hsu : (summaryScores.map Prod.fst).Nodup)
    (hsm : (smallChunkScores.map Prod.fst).Nodup) (k : Nat) :
    (∀ v w, smallChunkScores.lookup k = some v → summaryScores.lookup k = some w →
        (mergeScores alpha summaryScores smallChunkScores).lookup k
          = some (alpha * v + (1 - alpha) * w))
    ∧ (∀ v, smallChunkScores.lookup k = some v → summaryScores.lookup k = none →
        (mergeScores alpha summaryScores smallChunkScores).lookup k = some (alpha * v))
    ∧ (∀ w, smallChunkScores.lookup k = none → summaryScores.lookup k = some w →
        (mergeScores alpha summaryScores smallChunkScores).lookup k
          = some ((1 - alpha) * w)) := by
  refine ⟨?_, ?_, ?_⟩
  · intro v w hv hw
    rw [lookup_mergeScores alpha _ _ hsu hsm k, hv, hw]
  · intro v hv hw
    rw [lookup_mergeScores alpha _ _ hsu hsm k, hv, hw]
  · intro w hv hw
    rw [lookup_mergeScores alpha _ _ hsu hsm k, hv, hw]

/-- Witness for C6: `alpha = 1/2`, chunk 1 in both maps, chunk 2 only in the
summary map, chunk 3 only in the small-chunk map. -/
theorem merge_scores_fusion_witness :
    (([(1, 1/5), (2, 2/5)] : List (Nat × Score)).map Prod.fst).Nodup
    ∧ (([(1, 3/5), (3, 4/5)] : List (Nat × Score)).map Prod.fst).Nodup
    ∧ (mergeScores (1/2) [(1, 1/5), (2, 2/5)] [(1, 3/5), (3, 4/5)]).lookup 1
        = some ((1/2 : Score) * (3/5) + (1 - 1/2) * (1/5))
    ∧ (mergeScores (1/2) [(1, 1/5), (2, 2/5)] [(1, 3/5), (3, 4/5)]).lookup 3
        = some ((1/2 : Score) * (4/5))
    ∧ (mergeScores (1/2) [(1, 1/5), (2, 2/5)] [(1, 3/5), (3, 4/5)]).lookup 2
        = some ((1 - (1/2 : Score)) * (2/5)) := by
  have hsu : (([(1, 1/5), (2, 2/5)] : List (Nat × Score)).map Prod.fst).Nodup := by
    simp
  have hsm : (([(1, 3/5), (3, 4/5)] : List (Nat × Score)).map Prod.fst).Nodup := by
    simp
  refine ⟨hsu, hsm, ?_, ?_, ?_⟩
  · exact (merge_scores_fusion (1/2) [(1, 1/5), (2, 2/5)] [(1, 3/5), (3, 4/5)]
      hsu hsm 1).1 (3/5) (1/5) (by simp [List.lookup]) (by simp [List.lookup])
  · exact (merge_scores_fusion (1/2) [(1, 1/5), (2, 2/5)] [(1, 3/5), (3, 4/5)]
      hsu hsm 3).2.1 (4/5) (by simp [List.lookup]) (by simp [List.lookup])
  · exact (merge_scores_fusion (1/2) [(1, 1/5), (2, 2/5)] [(1, 3/5), (3, 4/5)]
      hsu hsm 2).2.2 (2/5) (by simp [List.lookup]) (by simp [List.lookup])

/-! ## Lemmas about the stable rerank sort and claim C5 -/

theorem pySortDescBy_sorted {α : Type _} (key : α → Score) (l : List α) :
    List.Sorted (fun a b => key b ≤ key a) (pySortDescBy key l) := by
  haveI : IsTotal α (fun a b => key b ≤ key a) := ⟨fun a b => le_total (key b) (key a)⟩
  haveI : IsTrans α (fun a b => key b ≤ key a) :=
    ⟨fun _ _ _ h1 h2 => le_trans h2 h1⟩
  exact List.sorted_insertionSort _ l

theorem filter_orderedInsert_key {α : Type _} (key : α → Score) (s : Score) (x : α)
    (l : List α) :
    (List.orderedInsert (fun a b => key b ≤ key a) x l).filter (fun a => key a = s)
      = if key x = s then x :: l.filter (fun a => key a = s)
        else l.filter (fun a => key a = s) := by
  rw [List.orderedInsert_eq_take_drop]
  rw [List.filter_append]
  by_cases hx : key x = s
  · rw [if_pos hx]
    have htw : (List.takeWhile (fun b => decide ¬(key b ≤ key x)) l).filter
        (fun a => key a = s) = [] := by
      rw [List.filter_eq_nil]
      intro a ha
      have := List.mem_takeWhile_imp ha
      simp only [decide_eq_true_eq, not_le] at this
      simp only [decide_eq_true_eq]
      intro heq
      rw [heq, hx] at this
      exact lt_irrefl s this
    rw [htw]
    simp only [List.nil_append, List.filter_cons]
    rw [if_pos (by simp [hx])]
    congr 1
    conv_rhs => rw [← List.takeWhile_append_dropWhile
      (p := fun b => decide ¬(key b ≤ key x)) (l := l)]
    rw [List.filter_append, htw, List.nil_append]
  · rw [if_neg hx]
    simp only [List.filter_cons]
    rw [if_neg (by simp [hx])]
    conv_rhs => rw [← List.takeWhile_append_dropWhile
      (p := fun b => decide ¬(key b ≤ key x)) (l := l)]
    rw [List.filter_append]

theorem pySortDescBy_filter_key {α : Type _} (key : α → Score) (s : Score) :
    ∀ (l : List α),
      (pySortDescBy key l).filter (fun a => key a = s) = l.filter (fun a => key a = s) := by
  intro l
  induction l with
  | nil => rfl
  | cons x rest ih =>
    unfold pySortDescBy at ih ⊢
    rw [List.insertionSort]
    rw [filter_orderedInsert_key key s x _]
    rw [ih]
    simp only [List.filter_cons]
    by_cases hx : key x = s
    · rw [if_pos hx, if_pos (by simp [hx])]
    · rw [if_neg hx, if_neg (by simp [hx])]

theorem map_fst_zip_sublist {α β : Type _} :
    ∀ (l₁ : List α) (l₂ : List β), ((l₁.zip l₂).map Prod.fst).Sublist l₁ := by
  intro l₁
  induction l₁ with
  | nil => intro l₂; simp
  | cons a t ih =>
    intro l₂
    match l₂ with
    | [] => simp
    | b :: t₂ =>
      simp only [List.zip_cons_cons, List.map_cons]
      exact (ih t₂).cons₂ a

/-- C5: the retriever returns at most `limit` items, sorted by rerank score
descending; among items with equal rerank scores the original fused-score
(descending) order — the order of the `prefetch_limit` candidates handed to
the reranker — is preserved (stable sort). -/
theorem retrieve_limit_sorted_stable (alpha : Score) (prefetchLimit limit : Nat)
    (chunkText : Nat → String) (rerankO : List String → List Score)
    (summaryScores smallChunkScores : List (Nat × Score)) :
    (retrieve alpha prefetchLimit limit chunkText rerankO summaryScores
        smallChunkScores).length ≤ limit
    ∧ List.Sorted (fun a b => b.rerankScore ≤ a.rerankScore)
        (retrieve alpha prefetchLimit limit chunkText rerankO summaryScores
          smallChunkScores)
    ∧ ∀ s : Score,
        (((retrieve alpha prefetchLimit limit chunkText rerankO summaryScores
            smallChunkScores).filter (fun r => r.rerankScore = s)).map
              (·.chunkId)).Sublist
          (((pySortDescBy Prod.snd
                (mergeScores alpha summaryScores smallChunkScores)).take
              prefetchLimit).map Prod.fst) := by
  refine ⟨?_, ?_, ?_⟩
  · simp only [retrieve, List.length_map, List.length_take]
    omega
  · simp only [retrieve]
    apply List.Pairwise.map
    · intro a b hab
      exact hab
    · exact List.Pairwise.sublist (List.take_sublist _ _) (pySortDescBy_sorted Prod.snd _)
  · intro s
    simp only [retrieve]
    set fused := pySortDescBy Prod.snd (mergeScores alpha summaryScores smallChunkScores)
      with hfused
    set topIds := (fused.take prefetchLimit).map Prod.fst with htopIds
    set pairs := topIds.zip (rerankO (topIds.map chunkText)) with hpairs
    rw [List.filter_map, List.map_map]
    have h1 : (((pySortDescBy Prod.snd pairs).take limit).filter
          (fun p => p.2 = s)).Sublist
        ((pySortDescBy Prod.snd pairs).filter (fun p => p.2 = s)) :=
      List.Sublist.filter _ (List.take_sublist _ _)
    have h2 : (pySortDescBy Prod.snd pairs).filter (fun p => p.2 = s)
        = pairs.filter (fun p => p.2 = s) :=
      pySortDescBy_filter_key Prod.snd s pairs
    have h3 : (pairs.filter (fun p => p.2 = s)).Sublist pairs := List.filter_sublist _
    have h4 : (pairs.map Prod.fst).Sublist topIds := map_fst_zip_sublist _ _
    rw [h2] at h1
    exact ((List.Sublist.map Prod.fst h1).trans (List.Sublist.map Prod.fst h3)).trans h4

/-! ## Lemmas about `NeoInserter.insert` and claims C2, C7 -/

theorem find_fresh_append (files : List FileRow) (fid : Nat)
    (hfresh : ∀ r ∈ files, r.id ≠ fid) (row : FileRow) (hrow : row.id = fid) :
    (files ++ [row]).find? (fun r => r.id = fid) = some row := by
  induction files with
  | nil =>
    simp only [List.nil_append, List.find?]
    rw [decide_eq_true hrow]
  | cons r rest ih =>
    have hr := hfresh r (by simp)
    simp only [List.cons_append, List.find?]
    rw [decide_eq_false hr]
    exact ih (fun x hx => hfresh x (by simp [hx]))

theorem find_map_id_preserving (f : FileRow → FileRow) (hf : ∀ r, (f r).id = r.id)
    (fid : Nat) :
    ∀ (files : List FileRow),
      (files.map f).find? (fun r => r.id = fid)
        = (files.find? (fun r => r.id = fid)).map f := by
  intro files
  induction files with
  | nil => rfl
  | cons r rest ih =>
    simp only [List.map_cons, List.find?, hf r]
    by_cases hr : r.id = fid
    · rw [decide_eq_true hr]
      rfl
    · rw [decide_eq_false hr]
      exact ih

theorem markFailed_find (db : DB) (fid : Nat) (msg : String) :
    (markFailed db fid msg).files.find? (fun r => r.id = fid)
      = ((db.files.find? (fun r => r.id = fid)).map (fun r =>
          if r.id = fid then { r with status := .failed, errorMessage := some msg } else r)) := by
  unfold markFailed
  exact find_map_id_preserving _ (fun r => by split <;> rfl) fid db.files

theorem commitAll_find (db : DB) (fid : Nat) (bigTexts : List Text)
    (items : List (WorkItem × Vec)) :
    (commitAll db fid bigTexts items).files.find? (fun r => r.id = fid)
      = ((db.files.find? (fun r => r.id = fid)).map (fun r =>
          if r.id = fid then { r with status := .ok, errorMessage := none } else r)) := by
  unfold commitAll
  exact find_map_id_preserving _ (fun r => by split <;> rfl) fid db.files

theorem noChunkRows_of_fresh (db : DB) (fid : Nat)
    (hB : ∀ r ∈ db.bigChunks, r.fileId ≠ fid)
    (hS : ∀ r ∈ db.summaries, r.fileId ≠ fid)
    (hC : ∀ r ∈ db.smallChunks, r.fileId ≠ fid) :
    noChunkRows db fid = true := by
  unfold noChunkRows
  simp only [Bool.and_eq_true, List.all_eq_true, decide_eq_true_eq]
  exact ⟨⟨hB, hS⟩, hC⟩

theorem enumerate_map_snd {α β : Type _} (f : α → β) :
    ∀ (l : List α) (i : Nat), (enumerate i l).map (fun p => f p.2) = l.map f := by
  intro l
  induction l with
  | nil => intro i; rfl
  | cons x xs ih =>
    intro i
    simp only [enumerate, List.map_cons]
    rw [ih (i + 1)]

theorem enumerate_length {α : Type _} :
    ∀ (l : List α) (i : Nat), (enumerate i l).length = l.length := by
  intro l
  induction l with
  | nil => intro i; rfl
  | cons x xs ih =>
    intro i
    simp only [enumerate, List.length_cons]
    rw [ih (i + 1)]

theorem smallTexts_enum (b : Nat) :
    ∀ (ts : List Text) (i : Nat),
      smallTexts ((enumerate i ts).map (fun p => WorkItem.smallChunkItem b p.1 p.2)) = ts := by
  intro ts
  induction ts with
  | nil => intro i; rfl
  | cons t rest ih =>
    intro i
    have h2 := ih (i + 1)
    unfold smallTexts at h2 ⊢
    simp only [enumerate, List.map_cons, List.filterMap_cons]
    rw [h2]

theorem summaryTexts_enum (b : Nat) :
    ∀ (ts : List Text) (i : Nat),
      summaryTexts ((enumerate i ts).map (fun p => WorkItem.smallChunkItem b p.1 p.2)) = [] := by
  intro ts
  induction ts with
  | nil => intro i; rfl
  | cons t rest ih =>
    intro i
    have h2 := ih (i + 1)
    unfold summaryTexts at h2 ⊢
    simp only [enumerate, List.map_cons, List.filterMap_cons]
    exact h2

theorem summaryTexts_append (a b : List WorkItem) :
    summaryTexts (a ++ b) = summaryTexts a ++ summaryTexts b := by
  unfold summaryTexts
  rw [List.filterMap_append]

theorem smallTexts_append (a b : List WorkItem) :
    smallTexts (a ++ b) = smallTexts a ++ smallTexts b := by
  unfold smallTexts
  rw [List.filterMap_append]

theorem buildWorkItems_parts (scCfg : ChunkerCfg) (enableSummaries : Bool)
    (summaryO : Nat → Text → Except String Text) :
    ∀ (l : List (Nat × Text)) (items : List WorkItem) (payload : List Text),
      buildWorkItems scCfg enableSummaries summaryO l = .ok (items, payload) →
      (summaryTexts items).length = (if enableSummaries then l.length else 0)
        ∧ smallTexts items = (l.map (fun p => (chunk scCfg p.2).getD [])).flatten := by
  intro l
  induction l with
  | nil =>
    intro items payload h
    simp only [buildWorkItems, Except.ok.injEq, Prod.mk.injEq] at h
    rw [← h.1]
    constructor
    · simp [summaryTexts]
    · simp [smallTexts]
  | cons p rest ih =>
    intro items payload h
    rw [buildWorkItems] at h
    match hstep : bigStepItems scCfg enableSummaries summaryO p.1 p.2 with
    | .error e => rw [hstep] at h; exact absurd h (by simp)
    | .ok (items1, payload1) =>
      rw [hstep] at h
      match hrest : buildWorkItems scCfg enableSummaries summaryO rest with
      | .error e => rw [hrest] at h; exact absurd h (by simp)
      | .ok (items2, payload2) =>
        rw [hrest] at h
        simp only [Except.ok.injEq, Prod.mk.injEq] at h
        obtain ⟨hitems, _⟩ := h
        have hih := ih items2 payload2 hrest
        unfold bigStepItems at hstep
        match hsc : chunk scCfg p.2 with
        | none => rw [hsc] at hstep; exact absurd hstep (by simp)
        | some smallPieces =>
          rw [hsc] at hstep
          simp only [Except.ok.injEq, Prod.mk.injEq] at hstep
          obtain ⟨hitems1, _⟩ := hstep
          rw [← hitems, ← hitems1]
          by_cases hen : enableSummaries = true
          · rw [if_pos hen] at *
            constructor
            · simp only [summaryTexts_append, List.length_append,
                summaryTexts_enum, List.length_nil, List.length_cons]
              have h1 : (summaryTexts [WorkItem.summaryItem p.1
                  (match summaryO p.1 p.2 with
                    | .ok t => t
                    | .error _ => p.2.take 200)]).length = 1 := rfl
              rw [hih.1, if_pos hen]
              simp only [summaryTexts] at h1 ⊢
              omega
            · simp only [smallTexts_append, smallTexts_enum]
              have h1 : smallTexts [WorkItem.summaryItem p.1
                  (match summaryO p.1 p.2 with
                    | .ok t => t
                    | .error _ => p.2.take 200)] = [] := rfl
              rw [h1, hih.2, List.map_cons, List.flatten_cons, hsc]
              simp
          · rw [if_neg hen] at *
            constructor
            · simp only [List.nil_append, summaryTexts_append, List.length_append,
                summaryTexts_enum, List.length_nil]
              rw [hih.1, if_neg hen]
            · simp only [List.nil_append, smallTexts_append, smallTexts_enum]
              rw [hih.2, List.map_cons, List.flatten_cons, hsc]
              simp

theorem filterMap_zip_small (fid : Nat) :
    ∀ (items : List WorkItem) (embs : List Vec), items.length = embs.length →
      (((items.zip embs).filterMap (fun iv =>
          match iv.1 with
          | .smallChunkItem _ _ t => some (SmallChunkRow.mk fid t iv.2)
          | _ => none)).map (fun r => r.text))
        = smallTexts items := by
  intro items
  induction items with
  | nil => intro embs _; rfl
  | cons x rest ih =>
    intro embs hlen
    match embs with
    | [] => simp at hlen
    | v :: vs =>
      simp only [List.length_cons] at hlen
      have := ih vs (by omega)
      match x with
      | .summaryItem b t =>
        simp only [List.zip_cons_cons, List.filterMap_cons, smallTexts,
          List.filterMap_cons] at this ⊢
        exact this
      | .smallChunkItem b i t =>
        simp only [List.zip_cons_cons, List.filterMap_cons, smallTexts,
          List.filterMap_cons, List.map_cons] at this ⊢
        rw [this]

theorem length_filterMap_zip_summary (fid : Nat) :
    ∀ (items : List WorkItem) (embs : List Vec), items.length = embs.length →
      ((items.zip embs).filterMap (fun iv =>
          match iv.1 with
          | .summaryItem _ t => some (SummaryRow.mk fid t iv.2)
          | _ => none)).length
        = (summaryTexts items).length := by
  intro items
  induction items with
  | nil => intro embs _; rfl
  | cons x rest ih =>
    intro embs hlen
    match embs with
    | [] => simp at hlen
    | v :: vs =>
      simp only [List.length_cons] at hlen
      have := ih vs (by omega)
      match x with
      | .summaryItem b t =>
        simp only [List.zip_cons_cons, List.filterMap_cons, summaryTexts,
          List.filterMap_cons, List.length_cons] at this ⊢
        rw [this]
      | .smallChunkItem b i t =>
        simp only [List.zip_cons_cons, List.filterMap_cons, summaryTexts,
          List.filterMap_cons] at this ⊢
        exact this

/-- C7: if `insert` raises during processing (chunking, summary collection,
embedding, or the final persistence transaction), then after the exception
propagates the Document's status is `failed`, its error message is the raised
exception's message, and no chunk rows for that document were committed. -/
theorem insert_failure_marks_failed (bcCfg scCfg : ChunkerCfg) (enableSummaries : Bool)
    (batchSize : Nat) (summaryO : Nat → Text → Except String Text)
    (embedO : List Text → Except String (List Vec)) (txnResult : Option String)
    (db : DB) (fid : Nat) (title : String) (text : Text)
    (hfreshF : ∀ r ∈ db.files, r.id ≠ fid)
    (hfreshB : ∀ r ∈ db.bigChunks, r.fileId ≠ fid)
    (hfreshS : ∀ r ∈ db.summaries, r.fileId ≠ fid)
    (hfreshC : ∀ r ∈ db.smallChunks, r.fileId ≠ fid)
    (db2 : DB) (e : String)
    (hrun : insert bcCfg scCfg enableSummaries batchSize summaryO embedO txnResult
        db fid title text = (db2, .error e)) :
    fileStatusOf db2 fid = some .failed
      ∧ fileErrorOf db2 fid = some (some e)
      ∧ noChunkRows db2 fid = true := by
  have hfind1 : ({ db with files := db.files ++ [⟨fid, title, .processing, none⟩] }
        : DB).files.find? (fun r => r.id = fid) = some ⟨fid, title, .processing, none⟩ :=
    find_fresh_append db.files fid hfreshF _ rfl
  have hmark : ∀ msg : String,
      fileStatusOf (markFailed { db with
          files := db.files ++ [⟨fid, title, .processing, none⟩] } fid msg) fid
          = some .failed
        ∧ fileErrorOf (markFailed { db with
            files := db.files ++ [⟨fid, title, .processing, none⟩] } fid msg) fid
          = some (some msg)
        ∧ noChunkRows (markFailed { db with
            files := db.files ++ [⟨fid, title, .processing, none⟩] } fid msg) fid
          = true := by
    intro msg
    refine ⟨?_, ?_, ?_⟩
    · unfold fileStatusOf
      rw [markFailed_find, hfind1]
      simp only [Option.map_some', if_true]
    · unfold fileErrorOf
      rw [markFailed_find, hfind1]
      simp only [Option.map_some', if_true]
    · exact noChunkRows_of_fresh _ fid hfreshB hfreshS hfreshC
  simp only [insert] at hrun
  split at hrun
  · injection hrun with h1 h2
    injection h2 with h3
    subst h3
    subst h1
    exact hmark _
  · split at hrun
    · injection hrun with h1 h2
      exact Except.noConfusion h2
    · split at hrun
      · injection hrun with h1 h2
        injection h2 with h3
        subst h3
        subst h1
        exact hmark _
      · split at hrun
        · injection hrun with h1 h2
          injection h2 with h3
          subst h3
          subst h1
          exact hmark _
        · split at hrun
          · injection hrun with h1 h2
            injection h2 with h3
            subst h3
            subst h1
            exact hmark _
          · split at hrun
            · injection hrun with h1 h2
              injection h2 with h3
              subst h3
              subst h1
              exact hmark _
            · injection hrun with h1 h2
              exact Except.noConfusion h2

/-- Witness for C7: a run in which the embedding service fails. -/
theorem insert_failure_marks_failed_witness :
    insert defaultBcCfg defaultScCfg true 128 (fun _ _ => .ok ['s'])
        (fun _ => .error "boom") none ⟨[], [], [], []⟩ 0 "t" "hello".toList
      = (⟨[⟨0, "t", .failed, some "boom"⟩], [], [], []⟩, .error "boom")
    ∧ (fileStatusOf (⟨[⟨0, "t", .failed, some "boom"⟩], [], [], []⟩ : DB) 0
          = some .failed
        ∧ fileErrorOf (⟨[⟨0, "t", .failed, some "boom"⟩], [], [], []⟩ : DB) 0
          = some (some "boom")
        ∧ noChunkRows (⟨[⟨0, "t", .failed, some "boom"⟩], [], [], []⟩ : DB) 0 = true) :=
  ⟨rfl,
    insert_failure_marks_failed defaultBcCfg defaultScCfg true 128
      (fun _ _ => .ok ['s']) (fun _ => .error "boom") none ⟨[], [], [], []⟩ 0 "t"
      "hello".toList (by simp) (by simp) (by simp) (by simp)
      ⟨[⟨0, "t", .failed, some "boom"⟩], [], [], []⟩ "boom" rfl⟩

theorem filter_fresh_append_rows {α : Type _} (p : α → Bool) (a b : List α)
    (ha : ∀ r ∈ a, p r = false) (hb : ∀ r ∈ b, p r = true) :
    (a ++ b).filter p = b := by
  have h1 : a.filter p = [] := List.filter_eq_nil.mpr (fun r hr => by simp [ha r hr])
  have h2 : b.filter p = b := List.filter_eq_self.mpr hb
  rw [List.filter_append, h1, h2, List.nil_append]

theorem mem_filterMap_fileId_summary (fid : Nat) (l : List (WorkItem × Vec)) :
    ∀ r ∈ l.filterMap (fun iv =>
        match iv.1 with
        | .summaryItem _ t => some (SummaryRow.mk fid t iv.2)
        | _ => none), r.fileId = fid := by
  intro r hr
  simp only [List.mem_filterMap] at hr
  obtain ⟨iv, _, hiv⟩ := hr
  obtain ⟨w, v⟩ := iv
  cases w with
  | summaryItem b t =>
    injection hiv with h
    rw [← h]
  | smallChunkItem b i t => exact Option.noConfusion hiv

theorem mem_filterMap_fileId_small (fid : Nat) (l : List (WorkItem × Vec)) :
    ∀ r ∈ l.filterMap (fun iv =>
        match iv.1 with
        | .smallChunkItem _ _ t => some (SmallChunkRow.mk fid t iv.2)
        | _ => none), r.fileId = fid := by
  intro r hr
  simp only [List.mem_filterMap] at hr
  obtain ⟨iv, _, hiv⟩ := hr
  obtain ⟨w, v⟩ := iv
  cases w with
  | summaryItem b t => exact Option.noConfusion hiv
  | smallChunkItem b i t =>
    injection hiv with h
    rw [← h]

/-- C2 counterexample: on an input whose big chunking yields no chunks, the
early `return None` path of `insert` leaves the bootstrap `File` row in
status `processing` — the document is neither `ok` nor `failed` after the
call returns. -/
theorem insert_empty_chunks_leaves_processing :
    insert defaultBcCfg defaultScCfg true 128 (fun _ _ => .ok ['s'])
        (fun ts => .ok (ts.map (fun _ => ([] : Vec)))) none ⟨[], [], [], []⟩ 0 "t" "".toList
      = (⟨[⟨0, "t", .processing, none⟩], [], [], []⟩, .ok none)
    ∧ fileStatusOf (⟨[⟨0, "t", .processing, none⟩], [], [], []⟩ : DB) 0
        = some .processing :=
  ⟨rfl, rfl⟩

/-- C2 (amended: the guarantee holds provided the big chunker returns at
least one chunk; when it returns an empty list the early `return None` path
leaves the row in `processing`, see the counterexample): once `insert`
returns or raises, the document's `File` row is terminal — either `ok` with
the full chunk hierarchy persisted (the big-chunk texts, one summary row
per big chunk when summaries are enabled, and the small-chunk texts of
every big chunk, chunk rows having been written only in the final
all-or-nothing transaction), or `failed` with no chunk rows belonging to
the document. -/
theorem insert_reaches_terminal_state (bcCfg scCfg : ChunkerCfg)
    (enableSummaries : Bool) (batchSize : Nat)
    (summaryO : Nat → Text → Except String Text)
    (embedO : List Text → Except String (List Vec)) (txnResult : Option String)
    (db : DB) (fid : Nat) (title : String) (text : Text)
    (hfreshF : ∀ r ∈ db.files, r.id ≠ fid)
    (hfreshB : ∀ r ∈ db.bigChunks, r.fileId ≠ fid)
    (hfreshS : ∀ r ∈ db.summaries, r.fileId ≠ fid)
    (hfreshC : ∀ r ∈ db.smallChunks, r.fileId ≠ fid)
    (hnonempty : ∀ cs, chunk bcCfg text = some cs → cs.isEmpty = false)
    (db2 : DB) (res : Except String (Option Nat))
    (hrun : insert bcCfg scCfg enableSummaries batchSize summaryO embedO txnResult
        db fid title text = (db2, res)) :
    (fileStatusOf db2 fid = some .ok
        ∧ (db2.bigChunks.filter (fun r => r.fileId = fid)).map (fun r => r.text)
            = (chunk bcCfg text).getD []
        ∧ (enableSummaries = true →
            (db2.summaries.filter (fun r => r.fileId = fid)).length
              = ((chunk bcCfg text).getD []).length)
        ∧ (db2.smallChunks.filter (fun r => r.fileId = fid)).map (fun r => r.text)
            = (((chunk bcCfg text).getD []).map
                (fun t => (chunk scCfg t).getD [])).flatten)
      ∨ (fileStatusOf db2 fid = some .failed ∧ noChunkRows db2 fid = true) := by
  have hfind1 : ({ db with files := db.files ++ [⟨fid, title, .processing, none⟩] }
        : DB).files.find? (fun r => r.id = fid) = some ⟨fid, title, .processing, none⟩ :=
    find_fresh_append db.files fid hfreshF _ rfl
  have hmark : ∀ msg : String,
      fileStatusOf (markFailed { db with
          files := db.files ++ [⟨fid, title, .processing, none⟩] } fid msg) fid
          = some .failed
        ∧ noChunkRows (markFailed { db with
            files := db.files ++ [⟨fid, title, .processing, none⟩] } fid msg) fid
          = true := by
    intro msg
    refine ⟨?_, ?_⟩
    · unfold fileStatusOf
      rw [markFailed_find, hfind1]
      simp only [Option.map_some', if_true]
    · exact noChunkRows_of_fresh _ fid hfreshB hfreshS hfreshC
  simp only [insert] at hrun
  split at hrun
  · injection hrun with h1 h2
    subst h1
    exact Or.inr (hmark _)
  · rename_i bigs hsc
    split at hrun
    · rename_i hemp
      exact absurd (hnonempty bigs hsc) (by simp [hemp])
    · rename_i hemp
      split at hrun
      · injection hrun with h1 h2
        subst h1
        exact Or.inr (hmark _)
      · rename_i workItems payload hbw
        split at hrun
        · injection hrun with h1 h2
          subst h1
          exact Or.inr (hmark _)
        · rename_i embeddings hemb
          split at hrun
          · injection hrun with h1 h2
            subst h1
            exact Or.inr (hmark _)
          · rename_i hlen
            have hlen2 : embeddings.length = workItems.length := not_not.mp hlen
            split at hrun
            · injection hrun with h1 h2
              subst h1
              exact Or.inr (hmark _)
            · rename_i htxn
              injection hrun with h1 h2
              subst h1
              have hparts := buildWorkItems_parts scCfg enableSummaries summaryO
                (enumerate 0 bigs) workItems payload hbw
              left
              refine ⟨?_, ?_, ?_, ?_⟩
              · unfold fileStatusOf
                rw [commitAll_find, hfind1]
                simp only [Option.map_some', if_true]
              · rw [hsc]
                simp only [commitAll]
                have hbig : ∀ r ∈ bigs.map (fun t => (⟨fid, t⟩ : BigChunkRow)),
                    r.fileId = fid := by
                  intro r hr
                  simp only [List.mem_map] at hr
                  obtain ⟨t, _, rfl⟩ := hr
                  rfl
                rw [filter_fresh_append_rows _ db.bigChunks _
                  (fun r hr => decide_eq_false (hfreshB r hr))
                  (fun r hr => decide_eq_true (hbig r hr))]
                simp only [List.map_map, Option.getD_some]
                exact List.map_id' bigs
              · intro hen
                rw [hsc]
                simp only [commitAll]
                rw [filter_fresh_append_rows _ db.summaries _
                  (fun r hr => decide_eq_false (hfreshS r hr))
                  (fun r hr => decide_eq_true
                    (mem_filterMap_fileId_summary fid _ r hr))]
                rw [length_filterMap_zip_summary fid workItems embeddings hlen2.symm]
                rw [hparts.1, if_pos hen, enumerate_length]
                simp
              · rw [hsc]
                simp only [commitAll]
                rw [filter_fresh_append_rows _ db.smallChunks _
                  (fun r hr => decide_eq_false (hfreshC r hr))
                  (fun r hr => decide_eq_true
                    (mem_filterMap_fileId_small fid _ r hr))]
                rw [filterMap_zip_small fid workItems embeddings hlen2.symm]
                rw [hparts.2]
                rw [enumerate_map_snd (fun t => (chunk scCfg t).getD []) bigs 0]
                simp

/-- Witness for C2: a fully successful run inserting the text `"hello"`
into an empty database. -/
theorem insert_reaches_terminal_state_witness :
    (∀ cs, chunk defaultBcCfg "hello".toList = some cs → cs.isEmpty = false)
    ∧ ((fileStatusOf insertSuccessDb 0 = some .ok
          ∧ (insertSuccessDb.bigChunks.filter (fun r => r.fileId = 0)).map
                (fun r => r.text)
              = (chunk defaultBcCfg "hello".toList).getD []
          ∧ (true = true →
              (insertSuccessDb.summaries.filter (fun r => r.fileId = 0)).length
                = ((chunk defaultBcCfg "hello".toList).getD []).length)
          ∧ (insertSuccessDb.smallChunks.filter (fun r => r.fileId = 0)).map
                (fun r => r.text)
              = (((chunk defaultBcCfg "hello".toList).getD []).map
                  (fun t => (chunk defaultScCfg t).getD [])).flatten)
        ∨ (fileStatusOf insertSuccessDb 0 = some .failed
            ∧ noChunkRows insertSuccessDb 0 = true)) := by
  have hne : ∀ cs, chunk defaultBcCfg "hello".toList = some cs → cs.isEmpty = false := by
    intro cs h
    have h0 : chunk defaultBcCfg "hello".toList = some ["hello".toList] := rfl
    rw [h0] at h
    injection h with h
    rw [← h]
    rfl
  exact ⟨hne, insert_reaches_terminal_state defaultBcCfg defaultScCfg true 128
    (fun _ _ => .ok ['s']) (fun ts => .ok (ts.map (fun _ => ([] : Vec)))) none
    ⟨[], [], [], []⟩ 0 "t" "hello".toList (by simp) (by simp) (by simp) (by simp)
    hne insertSuccessDb (.ok (some 0)) rfl⟩

end MedBot
